import Mathlib

/-!
Verification of the stats-parse repository: a shallow embedding of the
streaming stats-line parser (src/parser.go), the bom.gids ownership lookup
(GIDToBoM), and the per-BoM directory aggregation and sorting
(src/bomdirstats.go), together with proofs about the spec-level claims.

Modelling conventions:
* bytes are `Nat` (e.g. the tab byte is 9, the slash byte 47, the letter f 102);
* an input stream is the explicit list of its lines (each a byte list), the
  way bufio.Scanner delivers them (line terminators stripped);
* Go `int64` digit accumulation is modelled with an explicit wrap at 2^64
  into the signed range;
* a Go runtime panic (out-of-range slice index) is modelled as an explicit
  `crash` outcome, distinct from returning an error value;
* `time.Now()` is an explicit `now` argument where the code consults it.
-/

namespace StatsParse

/-- Error values of the stats parser, from src/parser.go: ErrBadPath and
ErrTooFewColumns. -/
inductive ParseErr where
  | badPath
  | tooFewColumns
deriving DecidableEq, Repr

/-- The parser's filter function takes one of two values: noFilter (the
default) or the method value filterForOldFiles (src/parser.go). -/
inductive FilterMode where
  | noFilter
  | oldFiles
deriving DecidableEq, Repr

/-- The state of the stats parser (struct Parser in src/parser.go, called
StatsParser at its use sites). The input stream is passed separately as an
explicit list of lines; the per-line scratch fields lineBytes, lineLength and
lineIndex are locals of the line-parsing functions here. -/
structure StatsParser where
  filter : FilterMode
  epochTimeDesired : Int
  Path : List Nat
  Size : Int
  GID : Int
  MTime : Int
  CTime : Int
  EntryType : Nat
  error : Option ParseErr
deriving DecidableEq, Repr

/-- A freshly constructed parser (New in src/parser.go): no filter, zero
values everywhere, no error recorded. -/
def newStatsParser : StatsParser :=
  { filter := .noFilter, epochTimeDesired := 0, Path := [], Size := 0,
    GID := 0, MTime := 0, CTime := 0, EntryType := 0, error := none }

/-- Outcome of extracting one tab-terminated column (parseNextColumn in
src/parser.go): the column bytes with the index just past the tab, the
too-few-columns failure, or a crash (the Go code indexes
lineBytes[lineIndex] before any bounds check, so calling it with the index
already at the end of the line panics). -/
inductive ColResult where
  | ok (col : List Nat) (next : Nat)
  | tooFew
  | crash
deriving DecidableEq, Repr

/-- Offset of the first tab byte in a byte list, if any. -/
def findTab : List Nat → Option Nat
  | [] => none
  | b :: rest => if b = 9 then some 0 else (findTab rest).map (· + 1)

/-- parseNextColumn from src/parser.go. The Go loop advances lineIndex until
it reads a tab; it checks lineIndex against lineLength only after each
increment, so the very first read is unguarded: if start is already past the
last byte the program panics (crash). Otherwise a tab at offset k yields the
column line[start : start+k] and the next index start+k+1, and running off
the end of the line without a tab yields the too-few-columns failure (the Go
code records ErrTooFewColumns in p.error at this point; here the caller
records it, which is observationally the same). -/
def parseNextColumn (line : List Nat) (start : Nat) : ColResult :=
  match (line.drop start).isEmpty, findTab (line.drop start) with
  | true, _ => .crash
  | false, none => .tooFew
  | false, some k => .ok ((line.drop start).take k) (start + k + 1)

/-- Wrap an integer into the signed 64-bit range, as Go int64 arithmetic
does. -/
def wrap64 (x : Int) : Int := (x + 2 ^ 63) % 2 ^ 64 - 2 ^ 63

/-- The digit-accumulation loop of parseNumberColumn in src/parser.go:
v = v*10 + int64(c) - '0' over the column's bytes, with int64 wraparound.
There is no validation that the bytes are digits. -/
def digitsVal (col : List Nat) : Int :=
  col.foldl (fun v c => wrap64 (v * 10 + (c : Int) - 48)) 0

/-- Outcome of parsing the six columns 2 to 7 (parseColumns2to7 in
src/parser.go): the updated parser and next index, a failure (with the
parser's fields updated as far as parsing got), or a crash. -/
inductive ColsOutcome where
  | ok (p : StatsParser) (next : Nat)
  | fail (p : StatsParser)
  | crash
deriving DecidableEq, Repr

/-- The destinations Go's parseColumns2to7 iterates over: the slice
[]*int64 of &Size, nil, &GID, nil, &MTime, &CTime; nil destinations parse
and discard the column. -/
inductive NumTarget where
  | size
  | skipCol
  | gid
  | mtime
  | ctime
deriving DecidableEq, Repr

/-- Store a parsed number into the field the target points at. -/
def setTarget (p : StatsParser) : NumTarget → Int → StatsParser
  | .size, v => { p with Size := v }
  | .skipCol, _ => p
  | .gid, v => { p with GID := v }
  | .mtime, v => { p with MTime := v }
  | .ctime, v => { p with CTime := v }

/-- The loop of parseColumns2to7: one parseNumberColumn per target, in
order; fields already stored are kept when a later column fails. -/
def parseNumberColumns (p : StatsParser) (line : List Nat) (i : Nat) :
    List NumTarget → ColsOutcome
  | [] => .ok p i
  | t :: ts =>
    match parseNextColumn line i with
    | .crash => .crash
    | .tooFew => .fail { p with error := some .tooFewColumns }
    | .ok col i2 => parseNumberColumns (setTarget p t (digitsVal col)) line i2 ts

/-- parseColumns2to7 from src/parser.go: six tab-terminated columns are
consumed in order, storing Size, (skipped), GID, (skipped), MTime, CTime. -/
def parseColumns2to7 (p : StatsParser) (line : List Nat) (i : Nat) : ColsOutcome :=
  parseNumberColumns p line i [.size, .skipCol, .gid, .skipCol, .mtime, .ctime]

/-- The value of one base64 (standard alphabet) character. -/
def b64Val (c : Nat) : Option Nat :=
  if 65 ≤ c ∧ c ≤ 90 then some (c - 65)
  else if 97 ≤ c ∧ c ≤ 122 then some (c - 97 + 26)
  else if 48 ≤ c ∧ c ≤ 57 then some (c - 48 + 52)
  else if c = 43 then some 62
  else if c = 47 then some 63
  else none

/-- Standard base64 decoding with padding, as base64.StdEncoding.Decode in
src/parser.go uses it: the input is consumed in four-byte quanta; the final
quantum may carry one or two padding bytes 61; any other shape is
a decode error (none). The input lines contain no carriage returns or line
feeds, so Go's skipping of those bytes never fires and is not modelled. -/
def base64Decode : List Nat → Option (List Nat)
  | [] => some []
  | a :: b :: c :: d :: rest =>
    match b64Val a, b64Val b with
    | some va, some vb =>
      if c = 61 then
        if d = 61 ∧ rest = [] then some [va * 4 + vb / 16] else none
      else
        match b64Val c with
        | some vc =>
          if d = 61 then
            if rest = [] then some [va * 4 + vb / 16, vb % 16 * 16 + vc / 4]
            else none
          else
            match b64Val d with
            | some vd =>
              match base64Decode rest with
              | some bs =>
                some ((va * 4 + vb / 16) :: (vb % 16 * 16 + vc / 4) ::
                      (vc % 4 * 64 + vd) :: bs)
              | none => none
            | none => none
        | none => none
    | _, _ => none
  | _ => none

/-- filterForOldFiles from src/parser.go: the record passes only if the
entry type is the file type byte f (102) and the older of MTime and CTime is
at or before epochTimeDesired. -/
def filterForOldFiles (p : StatsParser) : Bool :=
  if p.EntryType ≠ 102 then false
  else if min p.MTime p.CTime > p.epochTimeDesired then false
  else true

/-- Dispatch of the parser's filter function value: noFilter accepts
everything; oldFiles runs filterForOldFiles. -/
def applyFilter (p : StatsParser) : Bool :=
  match p.filter with
  | .noFilter => true
  | .oldFiles => filterForOldFiles p

/-- FilterForFilesOlderThan from src/parser.go: switches the filter to
filterForOldFiles and fixes the cutoff once, at configuration time, as
time.Now().Add(-d).Unix(); now is the explicit current epoch time and d the
duration in seconds. -/
def FilterForFilesOlderThan (p : StatsParser) (d now : Int) : StatsParser :=
  { p with filter := .oldFiles, epochTimeDesired := now - d }

/-- Result of parsing a single line (parseLine in src/parser.go): a return
value for Scan together with the updated parser, a skip signal (the filter
rejected the record, and the Go code tail-calls p.Scan() to move on to the
next line), or a crash. -/
inductive ScanStep where
  | ret (more : Bool) (p : StatsParser)
  | skip (p : StatsParser)
  | crash
deriving DecidableEq, Repr

/-- parseLine from src/parser.go, for one line. Lines of length at most one
return true immediately, leaving every field untouched. Otherwise the
encoded-path column, the six number columns and the entry-type column are
consumed in order; the first byte of the entry-type column is stored (the Go
code indexes entryTypeCol[0], so an empty entry-type column panics). Then
the filter runs; a rejected record yields skip, and an accepted one has its
path base64-decoded (decodePath), with ErrBadPath recorded on failure. -/
def parseLineCore (p : StatsParser) (l : List Nat) : ScanStep :=
  if l.length ≤ 1 then .ret true p
  else
    match parseNextColumn l 0 with
    | .crash => .crash
    | .tooFew => .ret false { p with error := some .tooFewColumns }
    | .ok encodedPath i1 =>
      match parseColumns2to7 p l i1 with
      | .crash => .crash
      | .fail p5 => .ret false p5
      | .ok p5 i6 =>
        match parseNextColumn l i6 with
        | .crash => .crash
        | .tooFew => .ret false { p5 with error := some .tooFewColumns }
        | .ok entryTypeCol _ =>
          match entryTypeCol with
          | [] => .crash
          | t :: _ =>
            let p6 := { p5 with EntryType := t }
            if applyFilter p6 then
              match base64Decode encodedPath with
              | none => .ret false { p6 with error := some .badPath }
              | some bs => .ret true { p6 with Path := bs }
            else .skip p6

/-- Result of Scan on a stream: the boolean Scan returns, the updated
parser and the remaining lines, or a crash. -/
inductive ScanResult where
  | ret (more : Bool) (p : StatsParser) (rest : List (List Nat))
  | crash
deriving DecidableEq, Repr

/-- Scan from src/parser.go over an explicit stream of lines: at end of
input it returns false; otherwise it parses the next line, and when the
filter rejected the record (skip) it continues with the following line,
exactly as the Go parseLine tail-calls p.Scan(). -/
def Scan (p : StatsParser) : List (List Nat) → ScanResult
  | [] => .ret false p []
  | l :: ls =>
    match parseLineCore p l with
    | .crash => .crash
    | .ret b p1 => .ret b p1 ls
    | .skip p1 => Scan p1 ls

/-- Err from src/parser.go: the recorded error, if any. -/
def Err (p : StatsParser) : Option ParseErr := p.error

/-! ### The GIDToBoM ownership lookup (bom.gids loader) -/

/-- Errors of the bom.gids loader: a line that does not split into exactly
two tab-separated columns, or a GID column entry that strconv.Atoi
rejects. -/
inductive BomGidsErr where
  | invalidLine (line : String)
  | atoiError (s : String)
deriving DecidableEq, Repr

/-- Association-list update with Go map-assignment semantics: replace the
entry for the key if present, otherwise append it. -/
def mapSet : List (Int × String) → Int → String → List (Int × String)
  | [], g, b => [(g, b)]
  | e :: rest, g, b => if e.1 = g then (g, b) :: rest else e :: mapSet rest g b

/-- Association-list lookup. -/
def mapGet (m : List (Int × String)) (g : Int) : Option String :=
  (m.find? (fun e => e.1 = g)).map (·.2)

/-- Go strings.Split with a one-character separator: the list of
substrings between separators; the empty string splits to one empty
column. Both separators used by the bom.gids loader (tab and comma) are
single characters. -/
def splitByte (sep : Char) : List Char → List (List Char)
  | [] => [[]]
  | c :: rest =>
    let r := splitByte sep rest
    if c = sep then [] :: r
    else
      match r with
      | h :: t => (c :: h) :: t
      | [] => [[c]]

/-- Go strings.TrimSpace: strips leading and trailing whitespace. -/
def goTrimSpace (s : String) : String :=
  ⟨((s.data.dropWhile Char.isWhitespace).reverse.dropWhile
      Char.isWhitespace).reverse⟩

/-- Go strconv.Atoi on a decimal string: an optional sign followed by at
least one digit; anything else is an error (none). The int64 range check is
elided; no claim depends on it. -/
def goAtoi (s : String) : Option Int :=
  let core : List Char → Option Int := fun cs =>
    if cs.isEmpty then none
    else cs.foldl
      (fun acc c => acc.bind fun v =>
        if c.isDigit then some (v * 10 + (c.toNat - 48 : Nat)) else none)
      (some 0)
  match s.toList with
  | '-' :: cs => (core cs).map (fun n => -n)
  | '+' :: cs => core cs
  | cs => core cs

/-- refomatBoM: strips every space from the BoM name
(strings.ReplaceAll with the one-character pattern " " and empty
replacement). -/
def refomatBoM (rawBoM : String) : String := ⟨rawBoM.data.filter (· ≠ ' ')⟩

/-- gidsCSVtoGIDs: splits the GID column on commas and parses each entry
with Atoi, failing on the first unparsable entry. -/
def gidsCSVtoGIDs (gidsCSV : String) : Except BomGidsErr (List Int) :=
  let gidStrs := (splitByte ',' gidsCSV.data).map (⟨·⟩)
  gidStrs.foldr
    (fun gidStr acc =>
      match goAtoi gidStr with
      | none => .error (.atoiError gidStr)
      | some g => acc.map (fun gs => g :: gs))
    (.ok [])

/-- parseBomGIDsLine: a line must split into exactly two tab-separated
columns, the BoM name (spaces stripped) and the comma-separated GIDs. -/
def parseBomGIDsLine (line : String) : Except BomGidsErr (String × List Int) :=
  let cols := (splitByte '\t' line.data).map (⟨·⟩)
  if cols.length ≠ 2 then .error (.invalidLine line)
  else
    let rawBoM := cols.headD ""
    let gidsCSV := (cols.drop 1).headD ""
    (gidsCSVtoGIDs gidsCSV).map (fun gids => (refomatBoM rawBoM, gids))

/-- parseBomGIDsData: folds the trimmed input lines into the gid-to-bom map,
assigning every GID of a line to that line's BoM (a repeated GID takes the
last-seen BoM), stopping at the first malformed line. -/
def parseBomGIDsData : List (Int × String) → List String → Except BomGidsErr (List (Int × String))
  | m, [] => .ok m
  | m, line :: rest =>
    match parseBomGIDsLine (goTrimSpace line) with
    | .error e => .error e
    | .ok (bom, gids) =>
      parseBomGIDsData (gids.foldl (fun m g => mapSet m g bom) m) rest

/-- The GIDToBoM lookup (src unnamed revision: type GIDToBoM). -/
structure GIDToBoM where
  gidToBom : List (Int × String)
deriving DecidableEq, Repr

/-- NewGIDToBoM: parse the bom.gids lines into a lookup. -/
def NewGIDToBoM (ls : List String) : Except BomGidsErr GIDToBoM :=
  (parseBomGIDsData [] ls).map (fun m => ⟨m⟩)

/-- The error GetBom returns for a GID that appeared in no bom.gids line
(ErrInvalidGID). -/
inductive GetBomErr where
  | invalidGID
deriving DecidableEq, Repr

/-- GetBom: the BoM a GID belongs to, or ErrInvalidGID when the GID was
absent from the parsed data. -/
def GetBom (p : GIDToBoM) (gid : Int) : Except GetBomErr String :=
  match mapGet p.gidToBom gid with
  | none => .error .invalidGID
  | some bom => .ok bom

/-! ### The directory aggregator (src/bomdirstats.go) -/

/-- The Stats tree node of src/bomdirstats.go: BoM label, directory (byte
string), count, size, and the children list kept sorted by directory. -/
inductive StatsNode where
  | mk (bom : String) (dir : List Nat) (count : Nat) (size : Int)
       (children : List StatsNode)

def StatsNode.bom : StatsNode → String
  | .mk b _ _ _ _ => b

def StatsNode.dir : StatsNode → List Nat
  | .mk _ d _ _ _ => d

def StatsNode.count : StatsNode → Nat
  | .mk _ _ c _ _ => c

def StatsNode.size : StatsNode → Int
  | .mk _ _ _ s _ => s

def StatsNode.children : StatsNode → List StatsNode
  | .mk _ _ _ _ ch => ch

/-- Strict byte-wise lexicographic order on byte strings, the order
cmp.Compare uses on Go strings. -/
def lexLt : List Nat → List Nat → Bool
  | [], [] => false
  | [], _ :: _ => true
  | _ :: _, [] => false
  | a :: as, b :: bs => if a < b then true else if b < a then false else lexLt as bs

/-- Find the child with the given directory, as the BinarySearchFunc call in
accumulateDirStats does on the sorted children list. -/
def lookupChild : List StatsNode → List Nat → Option StatsNode
  | [], _ => none
  | c :: cs, d => if c.dir = d then some c else lookupChild cs d

/-- Store a child under its directory: replace the existing child with that
directory, or insert at the sorted position (slices.Insert at the index
BinarySearchFunc reports). -/
def setChild : List StatsNode → List Nat → StatsNode → List StatsNode
  | [], _, n => [n]
  | c :: cs, d, n =>
    if c.dir = d then n :: cs
    else if lexLt d c.dir then n :: c :: cs
    else c :: setChild cs d n

/-- One accumulation step on a node: stats.Count++ and stats.Size += size. -/
def bumpNode (n : StatsNode) (size : Int) : StatsNode :=
  .mk n.bom n.dir (n.count + 1) (n.size + size) n.children

/-- The walk of accumulateDirStats over the path bytes: index 0 is skipped;
at every later slash byte the prefix fullPath[0:i] names the next directory,
whose node is looked up among the current node's children or created, bumped
by the record, and descended into for the rest of the path. The suffix
argument is fullPath.drop i, carried for structural recursion. -/
def accumPath (bom : String) (size : Int) (fullPath : List Nat) :
    Nat → List Nat → StatsNode → StatsNode
  | _, [], n => n
  | i, b :: rest, n =>
    if b = 47 ∧ i ≠ 0 then
      let d := fullPath.take i
      let child :=
        match lookupChild n.children d with
        | some c => c
        | none => .mk bom d 0 0 []
      let child2 := accumPath bom size fullPath (i + 1) rest (bumpNode child size)
      .mk n.bom n.dir n.count n.size (setChild n.children d child2)
    else accumPath bom size fullPath (i + 1) rest n

/-- Association-list get for the bomToStats map (Go map keyed by the BoM
string). -/
def assocGet (st : List (String × StatsNode)) (b : String) : Option StatsNode :=
  (st.find? (fun e => e.1 = b)).map (·.2)

/-- Association-list set for the bomToStats map. -/
def assocSet : List (String × StatsNode) → String → StatsNode → List (String × StatsNode)
  | [], b, n => [(b, n)]
  | e :: rest, b, n => if e.1 = b then (b, n) :: rest else e :: assocSet rest b n

/-- accumulateDirStats from src/bomdirstats.go, for one accepted record:
the BoM's root Stats (Directory "/") is fetched or created, bumped by the
record, and the path walk accumulates onto every further ancestor
directory. Newly created nodes are also appended to the flat results slice
in Go; that slice holds pointers into the trees, so its final contents are
exactly the trees' nodes and is recovered here by flattening
(see nodeEntries). -/
def accumulateDirStats (fullPath : List Nat) (size : Int) (bom : String)
    (bomToStats : List (String × StatsNode)) : List (String × StatsNode) :=
  let root :=
    match assocGet bomToStats bom with
    | some r => r
    | none => .mk bom [47] 0 0 []
  let root2 := accumPath bom size fullPath 0 fullPath (bumpNode root size)
  assocSet bomToStats bom root2

/-- One observable Stats entry: BoM label, directory, count, size. -/
structure Entry where
  bom : String
  dir : List Nat
  count : Nat
  size : Int
deriving DecidableEq, Repr

mutual

/-- All entries of a Stats tree: the node itself and, recursively, its
children. In Go these are the pointers that accumulateDirStats appended
to the results slice. -/
def nodeEntries : StatsNode → List Entry
  | .mk b d c s ch => ⟨b, d, c, s⟩ :: forestEntries ch

/-- All entries of a list of Stats trees. -/
def forestEntries : List StatsNode → List Entry
  | [] => []
  | n :: ns => nodeEntries n ++ forestEntries ns

end

/-- All entries accumulated in the bomToStats state: the contents of the Go
results slice, one Entry per Stats node ever created. -/
def entriesOfState (st : List (String × StatsNode)) : List Entry :=
  forestEntries (st.map (·.2))

/-- One resolved, accepted record as the aggregation loop sees it: its BoM
label (already resolved from the GID), its decoded path and its size. -/
structure RecordR where
  bom : String
  path : List Nat
  size : Int
deriving DecidableEq, Repr

/-- One aggregation pass over a list of accepted records, from the empty
state, exactly as the Scan loop of getBoMDirectoryStats drives
accumulateDirStats. -/
def runAggregation (rs : List RecordR) : List (String × StatsNode) :=
  rs.foldl (fun st r => accumulateDirStats r.path r.size r.bom st) []

/-! ### The result sorter (sortBoMDirectoryStats) -/

/-- Three-way comparison on integers, as Go cmp.Compare. -/
def cmpInt (x y : Int) : Int := if x < y then -1 else if y < x then 1 else 0

/-- Three-way byte-wise lexicographic comparison, as Go cmp.Compare on
strings. -/
def listCmp : List Nat → List Nat → Int
  | [], [] => 0
  | [], _ :: _ => -1
  | _ :: _, [] => 1
  | a :: as, b :: bs => if a < b then -1 else if b < a then 1 else listCmp as bs

/-- Number of path separators in a directory string
(strings.Count(dir, "/")). -/
def countSlash (d : List Nat) : Nat := (d.filter (fun b => b = 47)).length

/-- The comparator of sortBoMDirectoryStats: size descending, then
separator count ascending, then directory ascending; each stage returns its
comparison when it is nonzero, as the Go chain of cmp.Compare calls does. -/
def statsCmp (a b : Entry) : Int :=
  if cmpInt b.size a.size ≠ 0 then cmpInt b.size a.size
  else if cmpInt (countSlash a.dir) (countSlash b.dir) ≠ 0 then
    cmpInt (countSlash a.dir) (countSlash b.dir)
  else listCmp a.dir b.dir

/-- sortBoMDirectoryStats from src/bomdirstats.go: sorts the results by the
comparator (slices.SortFunc; any sort agreeing with the comparator yields a
list pairwise-ordered by it). -/
def sortBoMDirectoryStats (results : List Entry) : List Entry :=
  results.mergeSort (fun a b => statsCmp a b ≤ 0)

/-! ### The aggregation pipeline (BoMDirectoryStats) -/

/-- Outcome of the aggregation entry points: a value, the ownership-lookup
error, or a crash propagated from the parser model. -/
inductive Outcome (α : Type) where
  | ok (a : α)
  | error (e : GetBomErr)
  | crash
deriving DecidableEq, Repr

/-- The Scan loop of getBoMDirectoryStats in src/bomdirstats.go, with the
parser's Scan inlined line by line (skip steps continue the scan). While
Scan returns true, the record's GID is resolved (failing the whole run on
ErrInvalidGID) and accumulateDirStats is applied. When Scan returns false
the accumulated state is returned; the Go function returns results with a
nil error and never consults sp.Err(), so a decode failure that stopped the
scan is dropped here too. -/
def getBoMDirectoryStatsGo (g : GIDToBoM) (p : StatsParser)
    (st : List (String × StatsNode)) :
    List (List Nat) → Outcome (List (String × StatsNode))
  | [] => .ok st
  | l :: ls =>
    match parseLineCore p l with
    | .crash => .crash
    | .ret false _ => .ok st
    | .ret true p1 =>
      match GetBom g p1.GID with
      | .error e => .error e
      | .ok bom => getBoMDirectoryStatsGo g p1 (accumulateDirStats p1.Path p1.Size bom st) ls
    | .skip p1 => getBoMDirectoryStatsGo g p1 st ls

/-- BoMDirectoryStats from src/bomdirstats.go: configures the age filter
(cutoff now - d), runs the aggregation loop from the empty state, and sorts
the resulting entries; an ownership-lookup failure aborts with that error
and no stats. -/
def BoMDirectoryStats (p : StatsParser) (lines : List (List Nat))
    (g : GIDToBoM) (d now : Int) : Outcome (List Entry) :=
  match getBoMDirectoryStatsGo g (FilterForFilesOlderThan p d now) [] lines with
  | .crash => .crash
  | .error e => .error e
  | .ok st => .ok (sortBoMDirectoryStats (entriesOfState st))

/-! ### Byte-string helpers and concrete inputs -/

/-- Byte list of an ASCII string, for concrete inputs. -/
def strBytes (s : String) : List Nat := s.toList.map Char.toNat

/-- A stream line with no tab at all (the bad-data line of the repository's
own test TestBoMDirectoryStats). -/
def noTabsLine : List Nat := strBytes "this is invalid since there is no tabs"

/-- A well-formed record line: path "A" (base64 QQ==), size 5, GID 7,
mtime 1, ctime 2, entry type f, one trailing ignored column. -/
def sampleLine7 : List Nat := strBytes ("QQ==\t5\t0\t7\t0\t1\t2\tf\tz")

/-- A record line whose decoded path is "//x" (base64 Ly94): size 5, GID 7,
mtime 1, ctime 2, entry type f. -/
def dblSlashLine : List Nat := strBytes ("Ly94\t5\t0\t7\t0\t1\t2\tf\tz")

/-- A parser already switched to the age filter, for witnesses. -/
def pOld : StatsParser := { newStatsParser with filter := .oldFiles }

/-- A record line whose decoded path is "/a/f" (base64 L2EvZg==): size 5,
GID 7, mtime 1, ctime 2, entry type f. -/
def sampleLineA : List Nat := strBytes ("L2EvZg==\t5\t0\t7\t0\t1\t2\tf\tz")

/-- A record line whose decoded path is "/b/f" (base64 L2IvZg==): size 5,
GID 7, mtime 1, ctime 2, entry type f. -/
def sampleLineB : List Nat := strBytes ("L2IvZg==\t5\t0\t7\t0\t1\t2\tf\tz")

/-! ### The claimed sort order, stated from the spec's words -/

/-- Non-strict byte-wise lexicographic order on directory strings. -/
def lexLe (a b : List Nat) : Prop := lexLt a b = true ∨ a = b

/-- The total priority order the spec claims for the sorted output: first
descending by Size, then (on equal sizes) ascending by directory depth
measured as the count of path separators, then ascending lexicographically
by the directory string. -/
def priorityLE (a b : Entry) : Prop :=
  b.size < a.size ∨
    (a.size = b.size ∧
      (countSlash a.dir < countSlash b.dir ∨
        (countSlash a.dir = countSlash b.dir ∧ lexLe a.dir b.dir)))

/-! ### Spec-side view of the aggregation: ancestor directories, per-key
expected totals, and the tree invariants used to relate the Stats trees to
that view. -/

/-- The directories the walk of accumulateDirStats visits, from position i
with fullPath.drop i as the remaining suffix: the prefix fullPath.take j for
every later index j ≠ 0 holding a slash byte. -/
def innerFrom (fullPath : List Nat) : Nat → List Nat → List (List Nat)
  | _, [] => []
  | i, b :: rest =>
    if b = 47 ∧ i ≠ 0 then
      fullPath.take i :: innerFrom fullPath (i + 1) rest
    else innerFrom fullPath (i + 1) rest

/-- The ancestor directories of a record's path, as the aggregator
accumulates them: the root "/" always, then the proper prefixes ending just
before each later slash — the chain from the root down to and excluding the
path's leaf name. -/
def dirsOf (p : List Nat) : List (List Nat) := [47] :: innerFrom p 0 p

/-- A path beginning with two separator bytes (an empty first component). -/
def dblStart (p : List Nat) : Prop := p.take 2 = [47, 47]

instance decDblStart (p : List Nat) : Decidable (dblStart p) :=
  inferInstanceAs (Decidable (p.take 2 = [47, 47]))

/-- The entry of a Stats node, as exposed in the results. -/
def entryOf (n : StatsNode) : Entry := ⟨n.bom, n.dir, n.count, n.size⟩

/-- Expected count for key (b, d): how many records carry label b and have
d among their ancestor directories. -/
def specCount (rs : List RecordR) (b : String) (d : List Nat) : Nat :=
  (rs.filter (fun r => r.bom = b ∧ d ∈ dirsOf r.path)).length

/-- Expected size for key (b, d): total size of the records counted by
specCount. -/
def specSize (rs : List RecordR) (b : String) (d : List Nat) : Int :=
  ((rs.filter (fun r => r.bom = b ∧ d ∈ dirsOf r.path)).map (·.size)).sum

/-- The expected entry for key (b, d): absent when no record touches the
key, otherwise the accumulated count and size. -/
def specEntry (rs : List RecordR) (b : String) (d : List Nat) : Option Entry :=
  if specCount rs b d = 0 then none
  else some ⟨b, d, specCount rs b d, specSize rs b d⟩

/-- Find the entry with the given label and directory. -/
def entryFind (es : List Entry) (b : String) (d : List Nat) : Option Entry :=
  es.find? (fun e => e.bom = b ∧ e.dir = d)

/-- Find the entry with the given directory. -/
def dirFind (es : List Entry) (d : List Nat) : Option Entry :=
  es.find? (fun e => e.dir = d)

/-- The (label, directory) keys of an entry list. -/
def keysOf (es : List Entry) : List (String × List Nat) :=
  es.map (fun e => (e.bom, e.dir))

/-- The parent directory of a directory string: its longest proper prefix
ending just before a slash at an index other than 0, or none when there is
no such slash (a depth-one directory, child of the root). -/
def parentOf (d : List Nat) : Option (List Nat) := (innerFrom d 0 d).getLast?

/-- Fuel-driven chain construction: the chain of directories strictly below
position pd leading down to d, by iterating parentOf. -/
def chainFromAux (pd : Option (List Nat)) : Nat → List Nat → Option (List (List Nat))
  | 0, _ => none
  | fuel + 1, d =>
    if parentOf d = pd then some [d]
    else
      match parentOf d with
      | none => none
      | some r => (chainFromAux pd fuel r).map (· ++ [d])

/-- The chain of directories from just below pd down to d (none when
iterating parentOf from d never reaches pd). The fuel d.length + 1 always
suffices because parentOf strictly shortens its argument. -/
def chainFromO (pd : Option (List Nat)) (d : List Nat) : Option (List (List Nat)) :=
  chainFromAux pd (d.length + 1) d

/-- A chain whose first element has parent position pd and whose successive
elements are each the parent of the next. -/
def Linked : Option (List Nat) → List (List Nat) → Prop
  | _, [] => True
  | pd, d :: ds => parentOf d = pd ∧ Linked (some d) ds

/-- Descend a Stats node along a chain of directories, one child lookup per
element. -/
def descendNode : StatsNode → List (List Nat) → Option StatsNode
  | n, [] => some n
  | n, d :: rest =>
    match lookupChild n.children d with
    | none => none
    | some c => descendNode c rest

/-- Look a directory up in a children forest sitting at position pd: build
its chain below pd and descend. -/
def entGet (ch : List StatsNode) (pd : Option (List Nat)) (d : List Nat) :
    Option StatsNode :=
  match chainFromO pd d with
  | none => none
  | some [] => none
  | some (e :: rest) =>
    match lookupChild ch e with
    | none => none
    | some c => descendNode c rest

/-- The entry bump a record applies at one key: a fresh entry with count 1
on first sight, otherwise count + 1 and size + record size. -/
def bumpEntry (b : String) (d : List Nat) (size : Int) : Option Entry → Entry
  | none => ⟨b, d, 1, size⟩
  | some e => ⟨e.bom, e.dir, e.count + 1, e.size + size⟩

/-- The forest-level view of the accumulate walk: bump or create the node
for each chain element in turn, descending as accumPath does. -/
def updF (bom : String) (size : Int) : List (List Nat) → List StatsNode → List StatsNode
  | [], ch => ch
  | d :: ds, ch =>
    let c :=
      match lookupChild ch d with
      | some c => c
      | none => .mk bom d 0 0 []
    let c1 := bumpNode c size
    setChild ch d (.mk c1.bom c1.dir c1.count c1.size (updF bom size ds c1.children))

/-- The parent of an aggregated directory as the result set sees it: its
longest proper slash-prefix as computed by parentOf, or the root "/" when
there is none. Applied to a record's full path it names the deepest
ancestor directory the walk accumulates — the directory the file sits in
directly. -/
def parentD (q : List Nat) : List Nat := (parentOf q).getD [47]

/-- Count of the records with label b located directly in directory D. -/
def directCount (rs : List RecordR) (b : String) (D : List Nat) : Nat :=
  (rs.filter (fun r => r.bom = b ∧ parentD r.path = D)).length

/-- Total size of the records with label b located directly in D. -/
def directSize (rs : List RecordR) (b : String) (D : List Nat) : Int :=
  ((rs.filter (fun r => r.bom = b ∧ parentD r.path = D)).map (·.size)).sum

/-- D is a proper ancestor directory of C: C lies strictly below D along
the parent chain, or D is the root and C is not. -/
def ancestorOf (D C : List Nat) : Prop :=
  (D = [47] ∧ C ≠ [47]) ∨ ∃ l, chainFromO (some D) C = some l

/-- Structural invariant of a non-root Stats node sitting at parent
position pd: its directory's parent is pd, its label is b, its children are
strictly sorted by directory and each child satisfies the invariant one
level down. -/
def TreeInv (b : String) (pd : Option (List Nat)) : StatsNode → Prop
  | .mk bm d _ _ ch =>
    parentOf d = pd ∧ bm = b ∧
      ch.Pairwise (fun x y => lexLt x.dir y.dir = true) ∧
      ∀ x ∈ ch, TreeInv b (some d) x
termination_by n => sizeOf n
decreasing_by
  rename_i hx
  have := List.sizeOf_lt_of_mem hx
  simp only [StatsNode.mk.sizeOf_spec]
  omega

/-- Structural invariant of a per-BoM root Stats node: directory "/",
label b, sorted children, no child claiming the root directory, every child
a valid depth-one tree. -/
def RootInv (b : String) (n : StatsNode) : Prop :=
  n.dir = [47] ∧ n.bom = b ∧
    n.children.Pairwise (fun x y => lexLt x.dir y.dir = true) ∧
    ∀ c ∈ n.children, c.dir ≠ [47] ∧ TreeInv b none c

/-- Invariant of the bomToStats state: distinct BoM keys, each mapped to a
valid root tree for that BoM. -/
def StInv (st : List (String × StatsNode)) : Prop :=
  st.Pairwise (fun e1 e2 => e1.1 ≠ e2.1) ∧ ∀ e ∈ st, RootInv e.1 e.2

end StatsParse

namespace StatsParse

/-! ### Theorems: parser-level claims -/

lemma setTarget_preserves (p : StatsParser) (t : NumTarget) (v : Int) :
    (setTarget p t v).filter = p.filter ∧
      (setTarget p t v).epochTimeDesired = p.epochTimeDesired := by
  cases t <;> exact ⟨rfl, rfl⟩

lemma parseNumberColumns_preserves (ts : List NumTarget) :
    ∀ (p : StatsParser) (l : List Nat) (i : Nat) (p5 : StatsParser) (i6 : Nat),
      parseNumberColumns p l i ts = .ok p5 i6 →
      p5.filter = p.filter ∧ p5.epochTimeDesired = p.epochTimeDesired := by
  induction ts with
  | nil => intro p l i p5 i6 h; cases h; exact ⟨rfl, rfl⟩
  | cons t ts ih =>
    intro p l i p5 i6 h
    rw [parseNumberColumns] at h
    cases h1 : parseNextColumn l i with
    | crash => rw [h1] at h; cases h
    | tooFew => rw [h1] at h; cases h
    | ok col i2 =>
      rw [h1] at h
      have h2 := ih (setTarget p t (digitsVal col)) l i2 p5 i6 h
      have h3 := setTarget_preserves p t (digitsVal col)
      exact ⟨h2.1.trans h3.1, h2.2.trans h3.2⟩

lemma parseColumns2to7_preserves (p : StatsParser) (l : List Nat) (i : Nat)
    (p5 : StatsParser) (i6 : Nat) (h : parseColumns2to7 p l i = .ok p5 i6) :
    p5.filter = p.filter ∧ p5.epochTimeDesired = p.epochTimeDesired :=
  parseNumberColumns_preserves _ p l i p5 i6 h

lemma parseLineCore_ret_true (p : StatsParser) (l : List Nat) (p1 : StatsParser)
    (h : parseLineCore p l = .ret true p1) :
    (l.length ≤ 1 ∧ p1 = p) ∨
      (applyFilter p1 = true ∧ p1.filter = p.filter ∧
        p1.epochTimeDesired = p.epochTimeDesired) := by
  unfold parseLineCore at h
  split at h
  · cases h
    exact Or.inl ⟨by assumption, rfl⟩
  · refine Or.inr ?_
    split at h
    · cases h
    · cases h
    · rename_i encodedPath i1 h1
      split at h
      · cases h
      · cases h
      · rename_i p5 i6 h2
        split at h
        · cases h
        · cases h
        · rename_i etCol i7 h3
          split at h
          · cases h
          · rename_i t ts
            dsimp only at h
            split at h
            · rename_i h4
              split at h
              · cases h
              · rename_i bs hdec
                cases h
                have hp5 := parseColumns2to7_preserves p l i1 p5 i6 h2
                exact ⟨h4, hp5.1, hp5.2⟩
            · cases h

lemma parseLineCore_skip (p : StatsParser) (l : List Nat) (p1 : StatsParser)
    (h : parseLineCore p l = .skip p1) :
    p1.filter = p.filter ∧ p1.epochTimeDesired = p.epochTimeDesired := by
  unfold parseLineCore at h
  split at h
  · cases h
  · split at h
    · cases h
    · cases h
    · rename_i encodedPath i1 h1
      split at h
      · cases h
      · cases h
      · rename_i p5 i6 h2
        split at h
        · cases h
        · cases h
        · rename_i etCol i7 h3
          split at h
          · cases h
          · rename_i t ts
            dsimp only at h
            split at h
            · rename_i h4
              split at h
              · cases h
              · cases h
            · rename_i h4
              cases h
              have hp5 := parseColumns2to7_preserves p l i1 p5 i6 h2
              exact ⟨hp5.1, hp5.2⟩

/-- Claim C5: the age filter. First conjunct: a parsed record passes
filterForOldFiles exactly when its entry-type byte is f (102) and the
earlier of mtime and ctime is at or before the configured cutoff. Second
conjunct: FilterForFilesOlderThan computes the cutoff once, at
configuration time, as now minus the duration. Third conjunct: whenever the
age-filtered Scan hands a record to the caller (returns true), either that
record satisfies the predicate, or the true came from the blank-line
pass-through (some consumed line of length at most one ended the call), so
a record failing the predicate is never itself delivered: rejected records
are skipped internally. -/
theorem age_filter_semantics :
    (∀ p : StatsParser, filterForOldFiles p = true ↔
      (p.EntryType = 102 ∧ min p.MTime p.CTime ≤ p.epochTimeDesired)) ∧
    (∀ (p : StatsParser) (d now : Int),
      (FilterForFilesOlderThan p d now).filter = .oldFiles ∧
        (FilterForFilesOlderThan p d now).epochTimeDesired = now - d) ∧
    (∀ (p : StatsParser) (lines : List (List Nat)) (p1 : StatsParser)
        (rest : List (List Nat)), p.filter = .oldFiles →
      Scan p lines = .ret true p1 rest →
      filterForOldFiles p1 = true ∨
        ∃ n l, lines.get? n = some l ∧ l.length ≤ 1 ∧
          rest = lines.drop (n + 1)) := by
  refine ⟨?_, fun p d now => ⟨rfl, rfl⟩, ?_⟩
  · intro p
    unfold filterForOldFiles
    constructor
    · intro h
      by_cases h1 : p.EntryType = 102
      · simp only [h1, ne_eq, not_true_eq_false, if_false] at h
        split at h
        · cases h
        · exact ⟨h1, by omega⟩
      · simp [h1] at h
    · rintro ⟨h1, h2⟩
      simp [h1, not_lt.mpr h2]
  · intro p lines
    induction lines generalizing p with
    | nil => intro p1 rest _ h; simp [Scan] at h
    | cons l ls ih =>
      intro p1 rest hf h
      rw [Scan] at h
      cases hpl : parseLineCore p l with
      | ret b p' =>
        rw [hpl] at h
        cases h
        rcases parseLineCore_ret_true p l p1 hpl with ⟨hlen, rfl⟩ | ⟨hap, hfe, _⟩
        · exact Or.inr ⟨0, l, rfl, hlen, rfl⟩
        · refine Or.inl ?_
          rw [applyFilter, hfe, hf] at hap
          exact hap
      | skip p' =>
        rw [hpl] at h
        have hp' := parseLineCore_skip p l p' hpl
        rcases ih p' p1 rest (hp'.1.trans hf) h with hok | ⟨n, l', hget, hlen, hrest⟩
        · exact Or.inl hok
        · exact Or.inr ⟨n + 1, l', by simpa using hget, hlen, by simpa using hrest⟩
      | crash => rw [hpl] at h; cases h

/-- Claim C5 witness: the theorem applied to the concrete blank-line
stream under the age filter. -/
theorem age_filter_semantics_witness :
    filterForOldFiles pOld = true ∨
      ∃ n l, ([[120]] : List (List Nat)).get? n = some l ∧ l.length ≤ 1 ∧
        ([] : List (List Nat)) = [[120]].drop (n + 1) :=
  age_filter_semantics.2.2 pOld [[120]] pOld [] rfl rfl

/-! ### Theorems: the sort order -/

lemma cmpInt_neg (x y : Int) : cmpInt x y = -cmpInt y x := by
  unfold cmpInt
  split_ifs <;> omega

lemma listCmp_neg : ∀ a b : List Nat, listCmp a b = -listCmp b a := by
  intro a
  induction a with
  | nil => intro b; cases b <;> simp [listCmp]
  | cons x as ih =>
    intro b
    cases b with
    | nil => simp [listCmp]
    | cons y bs =>
      simp only [listCmp]
      split_ifs <;> first | omega | exact ih bs

lemma statsCmp_neg (a b : Entry) : statsCmp a b = -statsCmp b a := by
  simp only [statsCmp]
  rw [cmpInt_neg a.size b.size, cmpInt_neg (countSlash b.dir) (countSlash a.dir),
    listCmp_neg b.dir a.dir]
  split_ifs <;> omega

lemma lexLt_trans : ∀ a b c : List Nat,
    lexLt a b = true → lexLt b c = true → lexLt a c = true := by
  intro a
  induction a with
  | nil =>
    intro b c hab hbc
    cases b with
    | nil => cases hab
    | cons y bs =>
      cases c with
      | nil => cases hbc
      | cons z cs => rfl
  | cons x as ih =>
    intro b c hab hbc
    cases b with
    | nil => cases hab
    | cons y bs =>
      cases c with
      | nil => cases hbc
      | cons z cs =>
        simp only [lexLt] at hab hbc ⊢
        split_ifs at hab hbc ⊢ <;>
          (first | rfl | omega | cases hab | cases hbc | exact ih bs cs hab hbc)

lemma lexLe_trans (a b c : List Nat) (hab : lexLe a b) (hbc : lexLe b c) :
    lexLe a c := by
  rcases hab with hab | rfl
  · rcases hbc with hbc | rfl
    · exact Or.inl (lexLt_trans a b c hab hbc)
    · exact Or.inl hab
  · exact hbc

lemma listCmp_le_iff : ∀ a b : List Nat, listCmp a b ≤ 0 ↔ lexLe a b := by
  intro a
  induction a with
  | nil =>
    intro b
    cases b <;> simp [listCmp, lexLe, lexLt]
  | cons x as ih =>
    intro b
    cases b with
    | nil => simp [listCmp, lexLe, lexLt]
    | cons y bs =>
      by_cases h1 : x < y
      · simp [listCmp, lexLe, lexLt, h1]
      · by_cases h2 : y < x
        · have hxy : x ≠ y := by omega
          simp [listCmp, lexLe, lexLt, h1, h2, hxy]
        · have hxy : x = y := by omega
          subst hxy
          simp [listCmp, lexLe, lexLt, h1, h2, ih bs]

lemma priorityLE_trans (a b c : Entry) (hab : priorityLE a b)
    (hbc : priorityLE b c) : priorityLE a c := by
  rcases hab with hab | ⟨hs1, hab⟩
  · rcases hbc with hbc | ⟨hs2, _⟩
    · exact Or.inl (hbc.trans hab)
    · exact Or.inl (hs2 ▸ hab)
  · rcases hbc with hbc | ⟨hs2, hbc⟩
    · exact Or.inl (by omega)
    · refine Or.inr ⟨hs1.trans hs2, ?_⟩
      rcases hab with hab | ⟨hd1, hab⟩
      · rcases hbc with hbc | ⟨hd2, _⟩
        · exact Or.inl (hab.trans hbc)
        · exact Or.inl (hd2 ▸ hab)
      · rcases hbc with hbc | ⟨hd2, hbc⟩
        · exact Or.inl (by omega)
        · exact Or.inr ⟨hd1.trans hd2, lexLe_trans _ _ _ hab hbc⟩

lemma statsCmp_le_iff (a b : Entry) : statsCmp a b ≤ 0 ↔ priorityLE a b := by
  unfold statsCmp priorityLE
  constructor
  · intro hle
    split_ifs at hle with hc1 hc2
    · left
      unfold cmpInt at hc1 hle
      split_ifs at hc1 hle <;> omega
    · have hs : a.size = b.size := by
        unfold cmpInt at hc1; split_ifs at hc1 <;> omega
      refine Or.inr ⟨hs, Or.inl ?_⟩
      unfold cmpInt at hc2 hle
      split_ifs at hc2 hle <;> omega
    · have hs : a.size = b.size := by
        unfold cmpInt at hc1; split_ifs at hc1 <;> omega
      have hd : countSlash a.dir = countSlash b.dir := by
        unfold cmpInt at hc2; split_ifs at hc2 <;> omega
      exact Or.inr ⟨hs, Or.inr ⟨hd, (listCmp_le_iff _ _).mp hle⟩⟩
  · intro hp
    rcases hp with hlt | ⟨hs, hp⟩
    · have h1 : cmpInt b.size a.size = -1 := by
        unfold cmpInt
        split_ifs
        all_goals omega
      rw [h1]
      norm_num
    · have h1 : cmpInt b.size a.size = 0 := by
        unfold cmpInt; split_ifs <;> omega
      rw [h1]
      norm_num
      rcases hp with hdlt | ⟨hd, hlex⟩
      · have h2 : cmpInt (countSlash a.dir) (countSlash b.dir) = -1 := by
          unfold cmpInt; split_ifs <;> omega
        rw [h2]
        norm_num
      · have h2 : cmpInt (countSlash a.dir) (countSlash b.dir) = 0 := by
          unfold cmpInt; split_ifs <;> omega
        rw [h2]
        norm_num
        exact (listCmp_le_iff _ _).mpr hlex

lemma sorted_sortBoMDirectoryStats (xs : List Entry) :
    List.Sorted priorityLE (sortBoMDirectoryStats xs) := by
  unfold sortBoMDirectoryStats
  have h := @List.sorted_mergeSort Entry
    (fun a b : Entry => decide (statsCmp a b ≤ 0))
    (fun a b c hab hbc => by
      simp only [decide_eq_true_eq] at hab hbc ⊢
      exact (statsCmp_le_iff a c).mpr
        (priorityLE_trans a b c ((statsCmp_le_iff a b).mp hab)
          ((statsCmp_le_iff b c).mp hbc)))
    (fun a b => by
      simp only [Bool.or_eq_true, decide_eq_true_eq]
      have := statsCmp_neg a b
      omega)
    xs
  exact h.imp (fun hab => (statsCmp_le_iff _ _).mp (by simpa using hab))

/-! ### Path and chain combinatorics -/

lemma innerFrom_mem_iff (p : List Nat) :
    ∀ (s : List Nat) (i : Nat), s = p.drop i →
      ∀ d, d ∈ innerFrom p i s ↔
        ∃ j, i ≤ j ∧ j < p.length ∧ j ≠ 0 ∧ p.get? j = some 47 ∧ d = p.take j := by
  intro s
  induction s with
  | nil =>
    intro i hs d
    simp only [innerFrom, List.not_mem_nil, false_iff]
    rintro ⟨j, hij, hjl, -, -, -⟩
    have hle : p.length ≤ i := by
      by_contra hlt
      push_neg at hlt
      have hne : p.drop i ≠ [] := by
        apply List.ne_nil_of_length_pos
        rw [List.length_drop]
        omega
      exact hne hs.symm
    omega
  | cons b rest ih =>
    intro i hs d
    have hbi : p.get? i = some b := by
      have h0 := List.get?_drop p i 0
      rw [← hs] at h0
      simpa using h0.symm
    have hil : i < p.length := by
      have := List.get?_eq_some.mp hbi
      exact this.1
    have hrest : rest = p.drop (i + 1) := by
      have h1 : (p.drop i).tail = p.drop (i + 1) := by
        rw [← List.drop_one, List.drop_drop]
      rw [← hs] at h1
      simpa using h1
    simp only [innerFrom]
    by_cases hb : b = 47 ∧ i ≠ 0
    · rw [if_pos hb]
      simp only [List.mem_cons]
      rw [ih (i + 1) hrest d]
      constructor
      · rintro (rfl | ⟨j, h1, h2, h3, h4, h5⟩)
        · exact ⟨i, le_refl i, hil, hb.2, by rw [hbi, hb.1], rfl⟩
        · exact ⟨j, by omega, h2, h3, h4, h5⟩
      · rintro ⟨j, h1, h2, h3, h4, h5⟩
        by_cases hji : j = i
        · subst hji
          exact Or.inl h5
        · exact Or.inr ⟨j, by omega, h2, h3, h4, h5⟩
    · rw [if_neg hb]
      rw [ih (i + 1) hrest d]
      constructor
      · rintro ⟨j, h1, h2, h3, h4, h5⟩
        exact ⟨j, by omega, h2, h3, h4, h5⟩
      · rintro ⟨j, h1, h2, h3, h4, h5⟩
        by_cases hji : j = i
        · subst hji
          rw [hbi] at h4
          injection h4 with h4
          exact absurd ⟨h4, h3⟩ hb
        · exact ⟨j, by omega, h2, h3, h4, h5⟩

lemma innerDirs_mem_iff (p : List Nat) (d : List Nat) :
    d ∈ innerFrom p 0 p ↔
      ∃ j, j < p.length ∧ j ≠ 0 ∧ p.get? j = some 47 ∧ d = p.take j := by
  rw [innerFrom_mem_iff p p 0 (by simp) d]
  constructor
  · rintro ⟨j, -, h2, h3, h4, h5⟩
    exact ⟨j, h2, h3, h4, h5⟩
  · rintro ⟨j, h2, h3, h4, h5⟩
    exact ⟨j, Nat.zero_le j, h2, h3, h4, h5⟩

lemma innerFrom_length_lb (p : List Nat) :
    ∀ (s : List Nat) (i : Nat), s = p.drop i →
      ∀ d ∈ innerFrom p i s, i ≤ d.length ∧ d.length < p.length := by
  intro s i hs d hd
  rw [innerFrom_mem_iff p s i hs d] at hd
  obtain ⟨j, h1, h2, h3, h4, h5⟩ := hd
  subst h5
  rw [List.length_take_of_le (by omega)]
  omega

lemma innerFrom_pairwise_len (p : List Nat) :
    ∀ (s : List Nat) (i : Nat), s = p.drop i →
      (innerFrom p i s).Pairwise (fun x y => x.length < y.length) := by
  intro s
  induction s with
  | nil => intro i hs; simp [innerFrom]
  | cons b rest ih =>
    intro i hs
    have hrest : rest = p.drop (i + 1) := by
      have h1 : (p.drop i).tail = p.drop (i + 1) := by
        rw [← List.drop_one, List.drop_drop]
      rw [← hs] at h1
      simpa using h1
    have hil : i < p.length := by
      have hne : p.drop i ≠ [] := by rw [← hs]; simp
      have hne2 : 0 < (p.drop i).length := List.length_pos_iff_ne_nil.mpr hne
      rw [List.length_drop] at hne2
      omega
    simp only [innerFrom]
    by_cases hb : b = 47 ∧ i ≠ 0
    · rw [if_pos hb]
      refine List.Pairwise.cons ?_ (ih (i + 1) hrest)
      intro y hy
      have hylb := (innerFrom_length_lb p rest (i + 1) hrest y hy).1
      rw [List.length_take_of_le (by omega)]
      omega
    · rw [if_neg hb]
      exact ih (i + 1) hrest

lemma getLast?_of_max_len :
    ∀ l : List (List Nat), l.Pairwise (fun x y => x.length < y.length) →
      ∀ m ∈ l, (∀ x ∈ l, x.length ≤ m.length) → l.getLast? = some m := by
  intro l
  induction l with
  | nil => intro _ m hm; cases hm
  | cons a t ih =>
    intro hp m hm hmax
    cases hp with
    | cons hat hpt =>
      cases t with
      | nil =>
        have : m = a := by simpa using hm
        subst this
        rfl
      | cons a2 t2 =>
        rcases List.mem_cons.mp hm with rfl | hm2
        · exfalso
          have h1 := hat a2 (by simp)
          have h2 := hmax a2 (by simp)
          omega
        · rw [List.getLast?_cons_cons]
          exact ih hpt m hm2 (fun x hx => hmax x (List.mem_cons_of_mem a hx))

lemma parentOf_mem (d r : List Nat) (h : parentOf d = some r) :
    ∃ j, j < d.length ∧ j ≠ 0 ∧ d.get? j = some 47 ∧ r = d.take j := by
  have hm : r ∈ innerFrom d 0 d := List.mem_of_mem_getLast? h
  rw [innerDirs_mem_iff] at hm
  exact hm

lemma parentOf_length_lt (d r : List Nat) (h : parentOf d = some r) :
    r.length < d.length := by
  obtain ⟨j, h1, h2, h3, h4⟩ := parentOf_mem d r h
  subst h4
  rw [List.length_take_of_le (by omega)]
  omega

lemma parentOf_root : parentOf [47] = none := rfl

lemma parentOf_nil : parentOf ([] : List Nat) = none := rfl

lemma chainFromAux_congr :
    ∀ (f1 f2 : Nat) (pd : Option (List Nat)) (d : List Nat),
      d.length < f1 → d.length < f2 → chainFromAux pd f1 d = chainFromAux pd f2 d := by
  intro f1
  induction f1 with
  | zero => intro f2 pd d h1; omega
  | succ f ih =>
    intro f2 pd d h1 h2
    cases f2 with
    | zero => omega
    | succ f2a =>
      simp only [chainFromAux]
      by_cases hp : parentOf d = pd
      · rw [if_pos hp, if_pos hp]
      · rw [if_neg hp, if_neg hp]
        cases hr : parentOf d with
        | none => rfl
        | some r =>
          have hlen := parentOf_length_lt d r hr
          dsimp only
          rw [ih f2a pd r (by omega) (by omega)]

lemma chainFromO_eq (pd : Option (List Nat)) (d : List Nat) :
    chainFromO pd d =
      if parentOf d = pd then some [d]
      else
        match parentOf d with
        | none => none
        | some r => (chainFromO pd r).map (· ++ [d]) := by
  show chainFromAux pd (d.length + 1) d = _
  simp only [chainFromAux]
  by_cases hp : parentOf d = pd
  · rw [if_pos hp, if_pos hp]
  · rw [if_neg hp, if_neg hp]
    cases hr : parentOf d with
    | none => rfl
    | some r =>
      have hlen := parentOf_length_lt d r hr
      dsimp only
      rw [chainFromAux_congr d.length (r.length + 1) pd r (by omega) (by omega)]
      rfl

lemma chainFromO_hit (pd : Option (List Nat)) (d : List Nat)
    (hp : parentOf d = pd) : chainFromO pd d = some [d] := by
  rw [chainFromO_eq, if_pos hp]

lemma chainFromO_none_top (pd : Option (List Nat)) (d : List Nat)
    (hr : parentOf d = none) (hne : (none : Option (List Nat)) ≠ pd) :
    chainFromO pd d = none := by
  rw [chainFromO_eq, if_neg (by rw [hr]; exact hne), hr]

lemma chainFromO_step (pd : Option (List Nat)) (d r : List Nat)
    (hr : parentOf d = some r) (hne : (some r : Option (List Nat)) ≠ pd) :
    chainFromO pd d = (chainFromO pd r).map (· ++ [d]) := by
  rw [chainFromO_eq, if_neg (by rw [hr]; exact hne), hr]

lemma chainFromO_some_len_aux (m : List Nat) :
    ∀ (k : Nat) (d : List Nat), d.length ≤ k →
      ∀ l, chainFromO (some m) d = some l → m.length < d.length := by
  intro k
  induction k with
  | zero =>
    intro d hd l h
    have hd0 : d = [] := List.length_eq_zero.mp (by omega)
    subst hd0
    rw [chainFromO_none_top (some m) [] parentOf_nil (by simp)] at h
    cases h
  | succ k ih =>
    intro d hd l h
    by_cases hp : parentOf d = some m
    · exact parentOf_length_lt d m hp
    · cases hr : parentOf d with
      | none =>
        rw [chainFromO_none_top (some m) d hr (by simp)] at h
        cases h
      | some r =>
        have hne : (some r : Option (List Nat)) ≠ some m := by
          intro hc
          rw [hr] at hp
          exact hp hc
        rw [chainFromO_step (some m) d r hr hne] at h
        cases hcr : chainFromO (some m) r with
        | none => simp only [hcr, Option.map_none'] at h; cases h
        | some la =>
          have h1 := parentOf_length_lt d r hr
          have h2 := ih r (by omega) la hcr
          omega

lemma chainFromO_some_len (m d : List Nat) (l : List (List Nat))
    (h : chainFromO (some m) d = some l) : m.length < d.length :=
  chainFromO_some_len_aux m d.length d le_rfl l h

lemma linked_append_last :
    ∀ (l : List (List Nat)) (pd : Option (List Nat)) (r d : List Nat),
      Linked pd l → l.getLast? = some r → parentOf d = some r →
      Linked pd (l ++ [d]) := by
  intro l
  induction l with
  | nil => intro pd r d _ hl; cases hl
  | cons x xs ih =>
    intro pd r d hlink hlast hpar
    obtain ⟨hx, hxs⟩ := hlink
    cases xs with
    | nil =>
      have hrx : x = r := by simpa using hlast
      subst hrx
      exact ⟨hx, hpar, trivial⟩
    | cons y ys =>
      rw [List.getLast?_cons_cons] at hlast
      exact ⟨hx, ih (some x) r d hxs hlast hpar⟩

lemma chainFromO_linked_aux (pd : Option (List Nat)) :
    ∀ (k : Nat) (d : List Nat), d.length ≤ k →
      ∀ l, chainFromO pd d = some l →
        Linked pd l ∧ l.getLast? = some d ∧ l ≠ [] := by
  intro k
  induction k with
  | zero =>
    intro d hd l h
    have hd0 : d = [] := List.length_eq_zero.mp (by omega)
    subst hd0
    by_cases hp : parentOf ([] : List Nat) = pd
    · rw [chainFromO_hit pd [] hp] at h
      cases h
      exact ⟨⟨hp, trivial⟩, rfl, by simp⟩
    · rw [parentOf_nil] at hp
      rw [chainFromO_none_top pd [] parentOf_nil hp] at h
      cases h
  | succ k ih =>
    intro d hd l h
    by_cases hp : parentOf d = pd
    · rw [chainFromO_hit pd d hp] at h
      cases h
      exact ⟨⟨hp, trivial⟩, rfl, by simp⟩
    · cases hr : parentOf d with
      | none =>
        rw [chainFromO_none_top pd d hr (by rw [hr] at hp; exact hp)] at h
        cases h
      | some r =>
        have hne : (some r : Option (List Nat)) ≠ pd := by
          rw [hr] at hp
          exact hp
        rw [chainFromO_step pd d r hr hne] at h
        cases hcr : chainFromO pd r with
        | none => simp only [hcr, Option.map_none'] at h; cases h
        | some la =>
          simp only [hcr, Option.map_some'] at h
          cases h
          have hlr := parentOf_length_lt d r hr
          obtain ⟨hl1, hl2, hl3⟩ := ih r (by omega) la hcr
          exact ⟨linked_append_last la pd r d hl1 hl2 hr,
            List.getLast?_concat la, by simp⟩

lemma chainFromO_linked (pd : Option (List Nat)) (d : List Nat)
    (l : List (List Nat)) (h : chainFromO pd d = some l) :
    Linked pd l ∧ l.getLast? = some d ∧ l ≠ [] :=
  chainFromO_linked_aux pd d.length d le_rfl l h

lemma parentOf_ne_pd (x m : List Nat) (pd : Option (List Nat))
    (hpm : parentOf m = pd) (hx : parentOf x = some m) : parentOf x ≠ pd := by
  rw [hx]
  intro hcon
  rw [← hcon] at hpm
  have := parentOf_length_lt m m hpm
  omega

lemma chainFromO_compose_aux (pd : Option (List Nat)) (m : List Nat)
    (hpm : parentOf m = pd) :
    ∀ (k : Nat) (x : List Nat), x.length ≤ k →
      ∀ l, chainFromO (some m) x = some l → chainFromO pd x = some (m :: l) := by
  intro k
  induction k with
  | zero =>
    intro x hx l h
    have hx0 : x = [] := List.length_eq_zero.mp (by omega)
    subst hx0
    rw [chainFromO_none_top (some m) [] parentOf_nil (by simp)] at h
    cases h
  | succ k ih =>
    intro x hx l h
    by_cases hp : parentOf x = some m
    · rw [chainFromO_hit (some m) x hp] at h
      cases h
      rw [chainFromO_step pd x m hp (fun hc => parentOf_ne_pd x m pd hpm hp (hp.trans (congrArg _ rfl) ▸ hc)),
        chainFromO_hit pd m hpm]
      rfl
    · cases hr : parentOf x with
      | none =>
        rw [chainFromO_none_top (some m) x hr (by simp)] at h
        cases h
      | some r =>
        have hne : (some r : Option (List Nat)) ≠ some m := by
          intro hc
          rw [hr] at hp
          exact hp hc
        rw [chainFromO_step (some m) x r hr hne] at h
        cases hcr : chainFromO (some m) r with
        | none => simp only [hcr, Option.map_none'] at h; cases h
        | some la =>
          simp only [hcr, Option.map_some'] at h
          cases h
          have hlr := parentOf_length_lt x r hr
          have hmr := chainFromO_some_len m r la hcr
          have hne2 : (some r : Option (List Nat)) ≠ pd := by
            cases pd with
            | none => simp
            | some q =>
              intro hcon
              injection hcon with hcon
              subst hcon
              have := parentOf_length_lt m r hpm
              omega
          rw [chainFromO_step pd x r hr hne2, ih r (by omega) la hcr]
          rfl

lemma chainFromO_compose (pd : Option (List Nat)) (m x : List Nat)
    (l : List (List Nat)) (hpm : parentOf m = pd)
    (h : chainFromO (some m) x = some l) : chainFromO pd x = some (m :: l) :=
  chainFromO_compose_aux pd m hpm x.length x le_rfl l h

lemma chainFromO_decompose_aux (pd : Option (List Nat)) :
    ∀ (k : Nat) (d : List Nat), d.length ≤ k →
      ∀ e rest, chainFromO pd d = some (e :: rest) →
        parentOf e = pd ∧ (rest = [] → d = e) ∧
          (rest ≠ [] → chainFromO (some e) d = some rest) := by
  intro k
  induction k with
  | zero =>
    intro d hd e rest h
    have hd0 : d = [] := List.length_eq_zero.mp (by omega)
    subst hd0
    by_cases hp : parentOf ([] : List Nat) = pd
    · rw [chainFromO_hit pd [] hp] at h
      cases h
      exact ⟨hp, fun _ => rfl, fun hc => absurd rfl hc⟩
    · rw [parentOf_nil] at hp
      rw [chainFromO_none_top pd [] parentOf_nil hp] at h
      cases h
  | succ k ih =>
    intro d hd e rest h
    by_cases hp : parentOf d = pd
    · rw [chainFromO_hit pd d hp] at h
      cases h
      exact ⟨hp, fun _ => rfl, fun hc => absurd rfl hc⟩
    · cases hr : parentOf d with
      | none =>
        rw [chainFromO_none_top pd d hr (by rw [hr] at hp; exact hp)] at h
        cases h
      | some r =>
        have hne : (some r : Option (List Nat)) ≠ pd := by
          rw [hr] at hp
          exact hp
        rw [chainFromO_step pd d r hr hne] at h
        cases hcr : chainFromO pd r with
        | none => simp only [hcr, Option.map_none'] at h; cases h
        | some la =>
          simp only [hcr, Option.map_some'] at h
          injection h with h
          have hla : la ++ [d] = e :: rest := h
          have hlr := parentOf_length_lt d r hr
          cases la with
          | nil =>
            exact absurd rfl (chainFromO_linked pd r [] hcr).2.2
          | cons e2 la2 =>
            have he : e2 = e := by
              have := congrArg (List.head?) hla
              simpa using this
            subst he
            have hrest : rest = la2 ++ [d] := by
              have := congrArg (List.tail) hla
              simpa using this.symm
            obtain ⟨hpe, hbase, hstep⟩ := ih r (by omega) e2 la2 hcr
            refine ⟨hpe, ?_, ?_⟩
            · intro hre
              rw [hrest] at hre
              simp at hre
            · intro _
              cases la2 with
              | nil =>
                have hde : r = e2 := hbase rfl
                subst hde
                rw [chainFromO_hit (some r) d hr, hrest]
                simp
              | cons e3 la3 =>
                have hstep2 := hstep (by simp)
                have hel := chainFromO_some_len e2 r _ hstep2
                have hne2 : (some r : Option (List Nat)) ≠ some e2 := by
                  intro hcon
                  injection hcon with hcon
                  subst hcon
                  omega
                rw [chainFromO_step (some e2) d r hr hne2, hstep2, hrest]
                rfl

lemma chainFromO_decompose (pd : Option (List Nat)) (d e : List Nat)
    (rest : List (List Nat)) (h : chainFromO pd d = some (e :: rest)) :
    parentOf e = pd ∧ (rest = [] → d = e) ∧
      (rest ≠ [] → chainFromO (some e) d = some rest) :=
  chainFromO_decompose_aux pd d.length d le_rfl e rest h


lemma getLast?_max_len :
    ∀ l : List (List Nat), l.Pairwise (fun x y => x.length < y.length) →
      ∀ m, l.getLast? = some m → ∀ x ∈ l, x.length ≤ m.length := by
  intro l
  induction l with
  | nil => intro _ m hm; cases hm
  | cons a t ih =>
    intro hp m hm x hx
    cases hp with
    | cons hat hpt =>
      cases t with
      | nil =>
        have hma : m = a := by simpa using hm.symm
        subst hma
        have : x = m := by simpa using hx
        subst this
        exact le_refl _
      | cons a2 t2 =>
        rw [List.getLast?_cons_cons] at hm
        rcases List.mem_cons.mp hx with rfl | hx2
        · have hm2 : m ∈ a2 :: t2 := List.mem_of_mem_getLast? hm
          have := hat m hm2
          omega
        · exact ih hpt m hm x hx2

lemma take_innerDirs_mem_iff (p : List Nat) (m : Nat) (hm : m ≤ p.length)
    (d : List Nat) :
    d ∈ innerFrom (p.take m) 0 (p.take m) ↔
      ∃ j, j < m ∧ j ≠ 0 ∧ p.get? j = some 47 ∧ d = p.take j := by
  rw [innerDirs_mem_iff]
  constructor
  · rintro ⟨j, h1, h2, h3, h4⟩
    rw [List.length_take_of_le hm] at h1
    rw [List.get?_take h1] at h3
    refine ⟨j, h1, h2, h3, ?_⟩
    rw [h4, List.take_take]
    congr 1
    omega
  · rintro ⟨j, h1, h2, h3, h4⟩
    refine ⟨j, ?_, h2, ?_, ?_⟩
    · rw [List.length_take_of_le hm]
      exact h1
    · rw [List.get?_take h1]
      exact h3
    · rw [h4, List.take_take]
      congr 1
      omega

lemma parentOf_take_slash (p : List Nat) (i : Nat) (hi : i ≠ 0)
    (hs : p.get? i = some 47) : parentOf (p.take (i + 1)) = some (p.take i) := by
  have hil : i < p.length := (List.get?_eq_some.mp hs).1
  apply getLast?_of_max_len
  · exact innerFrom_pairwise_len (p.take (i + 1)) (p.take (i + 1)) 0 (by simp)
  · rw [take_innerDirs_mem_iff p (i + 1) (by omega)]
    exact ⟨i, by omega, hi, hs, rfl⟩
  · intro x hx
    rw [take_innerDirs_mem_iff p (i + 1) (by omega)] at hx
    obtain ⟨j, h1, h2, h3, h4⟩ := hx
    subst h4
    rw [List.length_take_of_le (by omega), List.length_take_of_le (by omega)]
    omega

lemma parentOf_take_no_slash (p : List Nat) (i : Nat)
    (hns : ¬(p.get? i = some 47 ∧ i ≠ 0)) :
    parentOf (p.take (i + 1)) = parentOf (p.take i) := by
  by_cases hil : p.length ≤ i
  · rw [List.take_of_length_le hil, List.take_of_length_le (by omega)]
  · push_neg at hil
    have hmem : ∀ d, d ∈ innerFrom (p.take (i + 1)) 0 (p.take (i + 1)) ↔
        d ∈ innerFrom (p.take i) 0 (p.take i) := by
      intro d
      rw [take_innerDirs_mem_iff p (i + 1) (by omega),
        take_innerDirs_mem_iff p i (by omega)]
      constructor
      · rintro ⟨j, h1, h2, h3, h4⟩
        refine ⟨j, ?_, h2, h3, h4⟩
        rcases Nat.lt_succ_iff_lt_or_eq.mp h1 with h | rfl
        · exact h
        · exact absurd ⟨h3, h2⟩ hns
      · rintro ⟨j, h1, h2, h3, h4⟩
        exact ⟨j, by omega, h2, h3, h4⟩
    unfold parentOf
    cases hg : (innerFrom (p.take i) 0 (p.take i)).getLast? with
    | none =>
      rw [List.getLast?_eq_none_iff] at hg ⊢
      rw [List.eq_nil_iff_forall_not_mem] at hg ⊢
      intro d hd
      exact hg d ((hmem d).mp hd)
    | some r =>
      apply getLast?_of_max_len
      · exact innerFrom_pairwise_len (p.take (i + 1)) (p.take (i + 1)) 0 (by simp)
      · exact (hmem r).mpr (List.mem_of_mem_getLast? hg)
      · intro x hx
        exact getLast?_max_len _
          (innerFrom_pairwise_len (p.take i) (p.take i) 0 (by simp)) r hg x
          ((hmem x).mp hx)

lemma innerFrom_linked (p : List Nat) :
    ∀ (s : List Nat) (i : Nat), s = p.drop i →
      Linked (parentOf (p.take i)) (innerFrom p i s) := by
  intro s
  induction s with
  | nil => intro i _; exact trivial
  | cons b rest ih =>
    intro i hs
    have hbi : p.get? i = some b := by
      have h0 := List.get?_drop p i 0
      rw [← hs] at h0
      simpa using h0.symm
    have hrest : rest = p.drop (i + 1) := by
      have h1 : (p.drop i).tail = p.drop (i + 1) := by
        rw [← List.drop_one, List.drop_drop]
      rw [← hs] at h1
      simpa using h1
    simp only [innerFrom]
    by_cases hb : b = 47 ∧ i ≠ 0
    · rw [if_pos hb]
      refine ⟨rfl, ?_⟩
      have hp4 : parentOf (p.take (i + 1)) = some (p.take i) :=
        parentOf_take_slash p i hb.2 (by rw [hbi, hb.1])
      have := ih (i + 1) hrest
      rw [hp4] at this
      exact this
    · rw [if_neg hb]
      have hp5 : parentOf (p.take (i + 1)) = parentOf (p.take i) := by
        apply parentOf_take_no_slash
        rintro ⟨h1, h2⟩
        rw [hbi] at h1
        injection h1 with h1
        exact hb ⟨h1, h2⟩
      have := ih (i + 1) hrest
      rw [hp5] at this
      exact this

lemma innerDirs_linked (p : List Nat) : Linked none (innerFrom p 0 p) := by
  have := innerFrom_linked p p 0 (by simp)
  simpa [parentOf_nil] using this

lemma innerDirs_ne_root (p : List Nat) (hdbl : ¬dblStart p) :
    ∀ d ∈ innerFrom p 0 p, d ≠ [47] := by
  intro d hd
  rw [innerDirs_mem_iff] at hd
  obtain ⟨j, h1, h2, h3, h4⟩ := hd
  subst h4
  intro hroot
  have hjl : (p.take j).length = j := List.length_take_of_le (by omega)
  rw [hroot] at hjl
  simp at hjl
  subst hjl
  apply hdbl
  unfold dblStart
  cases p with
  | nil => simp at h1
  | cons a t =>
    cases t with
    | nil => simp at h1
    | cons a2 t2 =>
      have ha : a = 47 := by
        have := congrArg (List.head?) hroot
        simpa using this
      have ha2 : a2 = 47 := by
        simpa using h3
      rw [ha, ha2]
      rfl

/-! ### Node-level helper lemmas -/

lemma lexLt_irrefl : ∀ a : List Nat, lexLt a a = false := by
  intro a
  induction a with
  | nil => rfl
  | cons x as ih => simp [lexLt, ih]

lemma lexLt_ne (a b : List Nat) (h : lexLt a b = true) : a ≠ b := by
  intro hab
  subst hab
  rw [lexLt_irrefl] at h
  cases h

lemma lexLt_or : ∀ a b : List Nat, a = b ∨ lexLt a b = true ∨ lexLt b a = true := by
  intro a
  induction a with
  | nil =>
    intro b
    cases b with
    | nil => exact Or.inl rfl
    | cons y bs => exact Or.inr (Or.inl rfl)
  | cons x as ih =>
    intro b
    cases b with
    | nil => exact Or.inr (Or.inr rfl)
    | cons y bs =>
      by_cases hxy : x < y
      · refine Or.inr (Or.inl ?_)
        simp [lexLt, hxy]
      · by_cases hyx : y < x
        · refine Or.inr (Or.inr ?_)
          simp [lexLt, hyx]
        · have hxe : x = y := by omega
          subst hxe
          rcases ih bs with h | h | h
          · exact Or.inl (by rw [h])
          · exact Or.inr (Or.inl (by simp [lexLt, h]))
          · exact Or.inr (Or.inr (by simp [lexLt, h]))

lemma lookupChild_some : ∀ (ch : List StatsNode) (d : List Nat) (c : StatsNode),
    lookupChild ch d = some c → c ∈ ch ∧ c.dir = d := by
  intro ch
  induction ch with
  | nil => intro d c h; cases h
  | cons x cs ih =>
    intro d c h
    rw [lookupChild] at h
    by_cases hx : x.dir = d
    · rw [if_pos hx] at h
      cases h
      exact ⟨List.mem_cons_self x cs, hx⟩
    · rw [if_neg hx] at h
      obtain ⟨h1, h2⟩ := ih d c h
      exact ⟨List.mem_cons_of_mem x h1, h2⟩

lemma lookupChild_none_of_all_ne (ch : List StatsNode) (d : List Nat)
    (h : ∀ c ∈ ch, c.dir ≠ d) : lookupChild ch d = none := by
  induction ch with
  | nil => rfl
  | cons x cs ih =>
    rw [lookupChild, if_neg (h x (List.mem_cons_self x cs))]
    exact ih (fun c hc => h c (List.mem_cons_of_mem x hc))

lemma setChild_mem : ∀ (ch : List StatsNode) (d : List Nat) (n x : StatsNode),
    x ∈ setChild ch d n → x = n ∨ x ∈ ch := by
  intro ch
  induction ch with
  | nil =>
    intro d n x h
    simp [setChild] at h
    exact Or.inl h
  | cons c cs ih =>
    intro d n x h
    rw [setChild] at h
    by_cases hc : c.dir = d
    · rw [if_pos hc] at h
      rcases List.mem_cons.mp h with rfl | h2
      · exact Or.inl rfl
      · exact Or.inr (List.mem_cons_of_mem c h2)
    · rw [if_neg hc] at h
      by_cases hlt : lexLt d c.dir
      · rw [if_pos hlt] at h
        rcases List.mem_cons.mp h with rfl | h2
        · exact Or.inl rfl
        · exact Or.inr h2
      · rw [if_neg hlt] at h
        rcases List.mem_cons.mp h with rfl | h2
        · exact Or.inr (List.mem_cons_self x cs)
        · rcases ih d n x h2 with h3 | h3
          · exact Or.inl h3
          · exact Or.inr (List.mem_cons_of_mem c h3)

lemma lookupChild_setChild_self : ∀ (ch : List StatsNode) (d : List Nat)
    (n : StatsNode), n.dir = d → lookupChild (setChild ch d n) d = some n := by
  intro ch
  induction ch with
  | nil => intro d n hd; simp [setChild, lookupChild, hd]
  | cons c cs ih =>
    intro d n hd
    rw [setChild]
    by_cases hc : c.dir = d
    · rw [if_pos hc, lookupChild, if_pos hd]
    · rw [if_neg hc]
      by_cases hlt : lexLt d c.dir
      · rw [if_pos hlt, lookupChild, if_pos hd]
      · rw [if_neg hlt, lookupChild, if_neg hc]
        exact ih d n hd

lemma lookupChild_setChild_ne : ∀ (ch : List StatsNode) (d e : List Nat)
    (n : StatsNode), n.dir = d → e ≠ d →
    lookupChild (setChild ch d n) e = lookupChild ch e := by
  intro ch
  induction ch with
  | nil =>
    intro d e n hd hne
    simp [setChild, lookupChild]
    intro hc
    rw [hd] at hc
    exact absurd hc.symm hne
  | cons c cs ih =>
    intro d e n hd hne
    rw [setChild]
    by_cases hc : c.dir = d
    · rw [if_pos hc, lookupChild, if_neg (by rw [hd]; exact fun h => hne h.symm),
        lookupChild, if_neg (by rw [hc]; exact fun h => hne h.symm)]
    · rw [if_neg hc]
      by_cases hlt : lexLt d c.dir
      · rw [if_pos hlt, lookupChild,
          if_neg (by rw [hd]; exact fun h => hne h.symm)]
      · rw [if_neg hlt, lookupChild, lookupChild]
        by_cases hce : c.dir = e
        · rw [if_pos hce, if_pos hce]
        · rw [if_neg hce, if_neg hce]
          exact ih d e n hd hne

lemma setChild_sorted : ∀ (ch : List StatsNode) (d : List Nat) (n : StatsNode),
    n.dir = d → ch.Pairwise (fun x y => lexLt x.dir y.dir = true) →
    (setChild ch d n).Pairwise (fun x y => lexLt x.dir y.dir = true) := by
  intro ch
  induction ch with
  | nil => intro d n _ _; simp [setChild]
  | cons c cs ih =>
    intro d n hd hp
    cases hp with
    | cons hc1 hcs =>
      rw [setChild]
      by_cases hc : c.dir = d
      · rw [if_pos hc]
        refine List.Pairwise.cons ?_ hcs
        intro y hy
        rw [hd, ← hc]
        exact hc1 y hy
      · rw [if_neg hc]
        by_cases hlt : lexLt d c.dir
        · rw [if_pos hlt]
          refine List.Pairwise.cons ?_ (List.Pairwise.cons hc1 hcs)
          intro y hy
          rcases List.mem_cons.mp hy with rfl | hy2
          · rw [hd]; exact hlt
          · rw [hd]
            exact lexLt_trans d c.dir y.dir hlt (hc1 y hy2)
        · rw [if_neg hlt]
          refine List.Pairwise.cons ?_ (ih d n hd hcs)
          intro y hy
          rcases setChild_mem cs d n y hy with rfl | hy2
          · rw [hd]
            rcases lexLt_or c.dir d with h | h | h
            · exact absurd h hc
            · exact h
            · exact absurd h (by simp [hlt])
          · exact hc1 y hy2

lemma bumpNode_dir (n : StatsNode) (s : Int) : (bumpNode n s).dir = n.dir := by
  cases n; rfl

lemma bumpNode_bom (n : StatsNode) (s : Int) : (bumpNode n s).bom = n.bom := by
  cases n; rfl

lemma bumpNode_children (n : StatsNode) (s : Int) :
    (bumpNode n s).children = n.children := by
  cases n; rfl

lemma treeInv_mk (b : String) (pd : Option (List Nat)) (bm : String)
    (d : List Nat) (c : Nat) (s : Int) (ch : List StatsNode) :
    TreeInv b pd (.mk bm d c s ch) ↔
      (parentOf d = pd ∧ bm = b ∧
        ch.Pairwise (fun x y => lexLt x.dir y.dir = true) ∧
        ∀ x ∈ ch, TreeInv b (some d) x) := by
  rw [TreeInv]

lemma statsNode_eta (n : StatsNode) :
    StatsNode.mk n.bom n.dir n.count n.size n.children = n := by
  cases n; rfl

lemma treeInv_bump (b : String) (pd : Option (List Nat)) (n : StatsNode)
    (s : Int) (h : TreeInv b pd n) : TreeInv b pd (bumpNode n s) := by
  cases n with
  | mk bm d c sz ch =>
    rw [treeInv_mk] at h
    rw [bumpNode]
    rw [treeInv_mk]
    exact h

lemma forestEntries_append : ∀ l1 l2 : List StatsNode,
    forestEntries (l1 ++ l2) = forestEntries l1 ++ forestEntries l2 := by
  intro l1
  induction l1 with
  | nil => intro l2; rfl
  | cons n ns ih =>
    intro l2
    rw [List.cons_append, forestEntries, forestEntries, ih, List.append_assoc]

lemma statsNodeRec (P : StatsNode → Prop)
    (step : ∀ bm d c s ch, (∀ x ∈ ch, P x) → P (.mk bm d c s ch)) :
    ∀ n, P n
  | .mk bm d c s ch => step bm d c s ch (fun x _ => statsNodeRec P step x)
termination_by n => sizeOf n
decreasing_by
  rename_i hx
  have := List.sizeOf_lt_of_mem hx
  simp only [StatsNode.mk.sizeOf_spec]
  omega

lemma forestEntries_mem : ∀ (l : List StatsNode) (e : Entry),
    e ∈ forestEntries l ↔ ∃ x ∈ l, e ∈ nodeEntries x := by
  intro l
  induction l with
  | nil => intro e; simp [forestEntries]
  | cons n ns ih =>
    intro e
    rw [forestEntries, List.mem_append, ih]
    constructor
    · rintro (h | ⟨x, hx, he⟩)
      · exact ⟨n, List.mem_cons_self n ns, h⟩
      · exact ⟨x, List.mem_cons_of_mem n hx, he⟩
    · rintro ⟨x, hx, he⟩
      rcases List.mem_cons.mp hx with rfl | hx2
      · exact Or.inl he
      · exact Or.inr ⟨x, hx2, he⟩

lemma tree_entries_bom : ∀ n : StatsNode, ∀ (b : String) (pd : Option (List Nat)),
    TreeInv b pd n → ∀ e ∈ nodeEntries n, e.bom = b := by
  apply statsNodeRec
  intro bm d c s ch ih b pd hinv e he
  rw [treeInv_mk] at hinv
  obtain ⟨-, hb, -, hch⟩ := hinv
  rw [nodeEntries] at he
  rcases List.mem_cons.mp he with rfl | he2
  · exact hb
  · obtain ⟨x, hx, hex⟩ := (forestEntries_mem ch e).mp he2
    exact ih x hx b (some d) (hch x hx) e hex

lemma tree_entries_dir : ∀ n : StatsNode, ∀ (b : String) (pd : Option (List Nat)),
    TreeInv b pd n → ∀ e ∈ nodeEntries n,
      e.dir = n.dir ∨ ∃ l, chainFromO (some n.dir) e.dir = some l := by
  apply statsNodeRec
  intro bm d c s ch ih b pd hinv e he
  rw [treeInv_mk] at hinv
  obtain ⟨-, -, -, hch⟩ := hinv
  rw [nodeEntries] at he
  rcases List.mem_cons.mp he with rfl | he2
  · exact Or.inl rfl
  · obtain ⟨x, hx, hex⟩ := (forestEntries_mem ch e).mp he2
    have hxinv := hch x hx
    have hpx : parentOf x.dir = some d := by
      cases x with
      | mk xb xd xc xs xch =>
        rw [treeInv_mk] at hxinv
        exact hxinv.1
    rcases ih x hx b (some d) hxinv e hex with hdir | ⟨l, hl⟩
    · refine Or.inr ⟨[x.dir], ?_⟩
      rw [hdir]
      exact chainFromO_hit (some d) x.dir hpx
    · exact Or.inr ⟨x.dir :: l, chainFromO_compose (some d) x.dir e.dir l hpx hl⟩

lemma subtree_key_disjoint (b : String) (pd : Option (List Nat))
    (x y : StatsNode) (hx : TreeInv b pd x) (hy : TreeInv b pd y)
    (hne : x.dir ≠ y.dir) (q : List Nat)
    (hqx : q = x.dir ∨ ∃ l, chainFromO (some x.dir) q = some l)
    (hqy : q = y.dir ∨ ∃ l, chainFromO (some y.dir) q = some l) : False := by
  have hpx : parentOf x.dir = pd := by
    cases x with
    | mk xb xd xc xs xch => rw [treeInv_mk] at hx; exact hx.1
  have hpy : parentOf y.dir = pd := by
    cases y with
    | mk yb yd yc ys ych => rw [treeInv_mk] at hy; exact hy.1
  rcases hqx with hq | ⟨l1, hl1⟩
  · rcases hqy with h | ⟨l2, hl2⟩
    · exact hne (hq.symm.trans h)
    · have h1 := chainFromO_hit pd q (hq ▸ hpx)
      have h2 := chainFromO_compose pd y.dir q l2 hpy hl2
      rw [h1] at h2
      injection h2 with h2
      have h3 := congrArg List.head? h2
      simp at h3
      exact hne (hq.symm.trans h3)
  · rcases hqy with hq | ⟨l2, hl2⟩
    · have h1 := chainFromO_hit pd q (hq ▸ hpy)
      have h2 := chainFromO_compose pd x.dir q l1 hpx hl1
      rw [h1] at h2
      injection h2 with h2
      have h3 := congrArg List.head? h2
      simp at h3
      exact hne (h3.symm.trans hq)
    · have h1 := chainFromO_compose pd x.dir q l1 hpx hl1
      have h2 := chainFromO_compose pd y.dir q l2 hpy hl2
      rw [h1] at h2
      injection h2 with h2
      have := congrArg List.head? h2
      simp at this
      exact hne this

lemma linked_last_has_parent : ∀ (l : List (List Nat)) (m : List Nat)
    (q : List Nat), Linked (some m) l → l.getLast? = some q →
      ∃ y, parentOf q = some y := by
  intro l
  induction l with
  | nil => intro m q _ hl; cases hl
  | cons x xs ih =>
    intro m q hlink hlast
    obtain ⟨hx, hxs⟩ := hlink
    cases xs with
    | nil =>
      have hq : x = q := by simpa using hlast
      subst hq
      exact ⟨m, hx⟩
    | cons y ys =>
      rw [List.getLast?_cons_cons] at hlast
      exact ih x q hxs hlast

lemma subtree_chain_dir_has_parent (m q : List Nat) (l : List (List Nat))
    (h : chainFromO (some m) q = some l) : ∃ y, parentOf q = some y := by
  obtain ⟨h1, h2, -⟩ := chainFromO_linked (some m) q l h
  exact linked_last_has_parent l m q h1 h2

lemma mapdir_mem (es : List Entry) (q : List Nat) :
    q ∈ es.map (·.dir) ↔ ∃ e ∈ es, e.dir = q := by
  simp

lemma forest_dirs_nodup : ∀ (ch : List StatsNode) (b : String)
    (pd : Option (List Nat)),
    (∀ x ∈ ch, ((nodeEntries x).map (·.dir)).Nodup) →
    ch.Pairwise (fun x y => lexLt x.dir y.dir = true) →
    (∀ x ∈ ch, TreeInv b pd x) →
    ((forestEntries ch).map (·.dir)).Nodup := by
  intro ch
  induction ch with
  | nil => intro b pd _ _ _; simp [forestEntries]
  | cons x cs ih =>
    intro b pd hnd hsort hinv
    rw [forestEntries, List.map_append]
    cases hsort with
    | cons hx1 hcs =>
      rw [List.nodup_append]
      refine ⟨hnd x (List.mem_cons_self x cs), ?_, ?_⟩
      · exact ih b pd (fun y hy => hnd y (List.mem_cons_of_mem x hy)) hcs
          (fun y hy => hinv y (List.mem_cons_of_mem x hy))
      · intro q hqx hqcs
        obtain ⟨e, he, hed⟩ := (mapdir_mem _ q).mp hqx
        obtain ⟨e2, he2, he2d⟩ := (mapdir_mem _ q).mp hqcs
        obtain ⟨x2, hx2, he2x⟩ := (forestEntries_mem cs e2).mp he2
        have hinvx := hinv x (List.mem_cons_self x cs)
        have hinvx2 := hinv x2 (List.mem_cons_of_mem x hx2)
        have hdx := tree_entries_dir x b pd hinvx e he
        have hdx2 := tree_entries_dir x2 b pd hinvx2 e2 he2x
        rw [hed] at hdx
        rw [he2d] at hdx2
        exact subtree_key_disjoint b pd x x2 hinvx hinvx2
          (lexLt_ne _ _ (hx1 x2 hx2)) q hdx hdx2

lemma node_dirs_nodup : ∀ n : StatsNode, ∀ (b : String)
    (pd : Option (List Nat)), TreeInv b pd n →
    ((nodeEntries n).map (·.dir)).Nodup := by
  apply statsNodeRec
  intro bm d c s ch ih b pd hinv
  have hinv2 := hinv
  rw [treeInv_mk] at hinv2
  obtain ⟨hpd, hb, hsort, hch⟩ := hinv2
  rw [nodeEntries, List.map_cons]
  refine List.Nodup.cons ?_ ?_
  · intro hmem
    obtain ⟨e, he, hed⟩ := (mapdir_mem _ d).mp hmem
    obtain ⟨x, hx, hex⟩ := (forestEntries_mem ch e).mp he
    have hinvx := hch x hx
    have hpx : parentOf x.dir = some d := by
      cases x with
      | mk xb xd xc xs xch => rw [treeInv_mk] at hinvx; exact hinvx.1
    rcases tree_entries_dir x b (some d) hinvx e hex with hdir | ⟨l, hl⟩
    · rw [hed] at hdir
      rw [← hdir] at hpx
      have := parentOf_length_lt d d hpx
      omega
    · rw [hed] at hl
      have h1 := chainFromO_some_len x.dir d l hl
      have h2 := parentOf_length_lt x.dir d hpx
      omega
  · exact forest_dirs_nodup ch b (some d)
      (fun x hx => ih x hx b (some d) (hch x hx)) hsort hch

lemma root_dirs_nodup (b : String) (R : StatsNode) (h : RootInv b R) :
    ((nodeEntries R).map (·.dir)).Nodup := by
  obtain ⟨hdir, hbom, hsort, hch⟩ := h
  cases R with
  | mk bm d c s ch =>
    simp only [StatsNode.dir] at hdir
    simp only [StatsNode.children] at hsort hch
    rw [nodeEntries, List.map_cons]
    refine List.Nodup.cons ?_ ?_
    · intro hmem
      obtain ⟨e, he, hed⟩ := (mapdir_mem _ d).mp hmem
      obtain ⟨x, hx, hex⟩ := (forestEntries_mem ch e).mp he
      obtain ⟨hxroot, hxinv⟩ := hch x hx
      rcases tree_entries_dir x b none hxinv e hex with hd2 | ⟨l, hl⟩
      · rw [hed, hdir] at hd2
        exact hxroot hd2.symm
      · rw [hed, hdir] at hl
        obtain ⟨y, hy⟩ := subtree_chain_dir_has_parent x.dir [47] l hl
        rw [parentOf_root] at hy
        cases hy
    · exact forest_dirs_nodup ch b none
        (fun x hx => node_dirs_nodup x b none (hch x hx).2) hsort
        (fun x hx => (hch x hx).2)

lemma root_entries_bom (b : String) (R : StatsNode) (h : RootInv b R) :
    ∀ e ∈ nodeEntries R, e.bom = b := by
  obtain ⟨hdir, hbom, hsort, hch⟩ := h
  cases R with
  | mk bm d c s ch =>
    simp only [StatsNode.bom] at hbom
    simp only [StatsNode.children] at hch
    intro e he
    rw [nodeEntries] at he
    rcases List.mem_cons.mp he with rfl | he2
    · exact hbom
    · obtain ⟨x, hx, hex⟩ := (forestEntries_mem ch e).mp he2
      exact tree_entries_bom x b none (hch x hx).2 e hex

lemma keys_nodup_of_dirs_bom (es : List Entry) (b : String)
    (hb : ∀ e ∈ es, e.bom = b) (hd : (es.map (·.dir)).Nodup) :
    (keysOf es).Nodup := by
  induction es with
  | nil => simp [keysOf]
  | cons e es2 ih =>
    rw [keysOf, List.map_cons]
    rw [List.map_cons] at hd
    cases hd with
    | cons hd1 hd2 =>
      refine List.Nodup.cons ?_
        (ih (fun x hx => hb x (List.mem_cons_of_mem e hx)) hd2)
      intro hmem
      rw [List.mem_map] at hmem
      obtain ⟨e2, he2, hkey⟩ := hmem
      have : e2.dir = e.dir := by
        have := congrArg Prod.snd hkey
        simpa using this
      exact hd1 e2.dir (List.mem_map_of_mem (·.dir) he2) this.symm

lemma entriesOfState_cons (b : String) (R : StatsNode)
    (st : List (String × StatsNode)) :
    entriesOfState ((b, R) :: st) = nodeEntries R ++ entriesOfState st := by
  rw [entriesOfState, List.map_cons, forestEntries]
  rfl

lemma state_keys_nodup (st : List (String × StatsNode)) (h : StInv st) :
    (keysOf (entriesOfState st)).Nodup := by
  obtain ⟨hpw, hroot⟩ := h
  induction st with
  | nil => simp [entriesOfState, forestEntries, keysOf]
  | cons e st2 ih =>
    obtain ⟨b, R⟩ := e
    rw [entriesOfState_cons, keysOf, List.map_append]
    cases hpw with
    | cons hp1 hp2 =>
      rw [List.nodup_append]
      have hR := hroot (b, R) (List.mem_cons_self _ _)
      refine ⟨?_, ?_, ?_⟩
      · exact keys_nodup_of_dirs_bom _ b (root_entries_bom b R hR)
          (root_dirs_nodup b R hR)
      · exact ih hp2 (fun x hx => hroot x (List.mem_cons_of_mem _ hx))
      · intro k hk1 hk2
        rw [List.mem_map] at hk1
        obtain ⟨e1, he1, hke1⟩ := hk1
        have hb1 : e1.bom = b := root_entries_bom b R hR e1 he1
        rw [← keysOf] at hk2
        have : ∃ e2 ∈ entriesOfState st2, (e2.bom, e2.dir) = k := by
          rw [keysOf, List.mem_map] at hk2
          exact hk2
        obtain ⟨e2, he2, hke2⟩ := this
        rw [entriesOfState] at he2
        obtain ⟨x2, hx2, he2x⟩ :=
          (forestEntries_mem (st2.map (·.2)) e2).mp he2
        rw [List.mem_map] at hx2
        obtain ⟨⟨b2, R2⟩, hb2r, hx2e⟩ := hx2
        have hR2 := hroot (b2, R2) (List.mem_cons_of_mem _ hb2r)
        have hb2 : e2.bom = b2 := by
          subst hx2e
          exact root_entries_bom b2 R2 hR2 e2 he2x
        have hbb : b ≠ b2 := hp1 (b2, R2) hb2r
        apply hbb
        have h1 := congrArg Prod.fst hke1
        have h2 := congrArg Prod.fst hke2
        simp at h1 h2
        rw [← hb1, h1, ← h2, hb2]

lemma entGet_chain_none (ch : List StatsNode) (pd : Option (List Nat))
    (q : List Nat) (h : chainFromO pd q = none) : entGet ch pd q = none := by
  simp only [entGet, h]

lemma entGet_chain_cons (ch : List StatsNode) (pd : Option (List Nat))
    (q e : List Nat) (rest : List (List Nat))
    (h : chainFromO pd q = some (e :: rest)) :
    entGet ch pd q =
      match lookupChild ch e with
      | none => none
      | some c => descendNode c rest := by
  simp only [entGet, h]

lemma lookupChild_cons (c : StatsNode) (cs : List StatsNode) (d : List Nat) :
    lookupChild (c :: cs) d = if c.dir = d then some c else lookupChild cs d :=
  rfl

lemma dirFind_nil (q : List Nat) : dirFind [] q = none := rfl

lemma dirFind_append (l1 l2 : List Entry) (q : List Nat) :
    dirFind (l1 ++ l2) q = (dirFind l1 q).or (dirFind l2 q) := by
  rw [dirFind, dirFind, dirFind, List.find?_append]

lemma forest_dirFind (b : String) (pd : Option (List Nat)) :
    ∀ ch : List StatsNode,
      (∀ x ∈ ch, ∀ q, dirFind (nodeEntries x) q =
        if q = x.dir then some (entryOf x)
        else (entGet x.children (some x.dir) q).map entryOf) →
      ch.Pairwise (fun x y => lexLt x.dir y.dir = true) →
      (∀ x ∈ ch, TreeInv b pd x) →
      ∀ q, dirFind (forestEntries ch) q = (entGet ch pd q).map entryOf := by
  intro ch
  induction ch with
  | nil =>
    intro _ _ _ q
    cases hc : chainFromO pd q with
    | none => rw [forestEntries, dirFind_nil, entGet_chain_none [] pd q hc]; rfl
    | some l =>
      cases l with
      | nil =>
        rw [forestEntries, dirFind_nil]
        rw [show entGet [] pd q = none from by simp only [entGet, hc]]
        rfl
      | cons e rest =>
        rw [forestEntries, dirFind_nil, entGet_chain_cons [] pd q e rest hc]
        rfl
  | cons x cs ih =>
    intro hnp hsort hinv q
    have hx := hnp x (List.mem_cons_self x cs)
    have hxinv := hinv x (List.mem_cons_self x cs)
    have hpx : parentOf x.dir = pd := by
      cases x with
      | mk xb xd xc xs xch =>
        rw [treeInv_mk] at hxinv
        exact hxinv.1
    cases hsort with
    | cons hx1 hcs =>
      have ihcs := ih (fun y hy => hnp y (List.mem_cons_of_mem x hy)) hcs
        (fun y hy => hinv y (List.mem_cons_of_mem x hy))
      rw [forestEntries, dirFind_append]
      cases hc : chainFromO pd q with
      | none =>
        have h1 : dirFind (nodeEntries x) q = none := by
          rw [hx q]
          by_cases hqd : q = x.dir
          · subst hqd
            rw [chainFromO_hit pd x.dir hpx] at hc
            cases hc
          · rw [if_neg hqd]
            cases hc2 : chainFromO (some x.dir) q with
            | none => rw [entGet_chain_none _ _ _ hc2]; rfl
            | some l =>
              have hcomp := chainFromO_compose pd x.dir q l hpx hc2
              rw [hc] at hcomp
              cases hcomp
        have h2 : dirFind (forestEntries cs) q = none := by
          rw [ihcs q, entGet_chain_none cs pd q hc]
          rfl
        rw [h1, h2, entGet_chain_none _ pd q hc]
        rfl
      | some l =>
        cases l with
        | nil => exact absurd rfl (chainFromO_linked pd q [] hc).2.2
        | cons e rest =>
          obtain ⟨hpe, hbase, hstep⟩ := chainFromO_decompose pd q e rest hc
          rw [entGet_chain_cons (x :: cs) pd q e rest hc, lookupChild_cons]
          by_cases hxe : x.dir = e
          · rw [if_pos hxe]
            have h2 : dirFind (forestEntries cs) q = none := by
              rw [ihcs q, entGet_chain_cons cs pd q e rest hc]
              have hlk : lookupChild cs e = none := by
                apply lookupChild_none_of_all_ne
                intro c hcmem
                have hne := lexLt_ne x.dir c.dir (hx1 c hcmem)
                rw [hxe] at hne
                exact fun hce => hne hce.symm
              rw [hlk]
              rfl
            cases rest with
            | nil =>
              have hq : q = e := hbase rfl
              have h1 : dirFind (nodeEntries x) q = some (entryOf x) := by
                rw [hx q, if_pos (by rw [hq, ← hxe])]
              rw [h1, h2]
              rfl
            | cons e2 rest2 =>
              have hc2 : chainFromO (some e) q = some (e2 :: rest2) :=
                hstep (by simp)
              have hlen : e.length < q.length :=
                chainFromO_some_len e q (e2 :: rest2) hc2
              have hqne : q ≠ x.dir := by
                intro hcon
                rw [hcon, hxe] at hlen
                exact Nat.lt_irrefl _ hlen
              have h1 : dirFind (nodeEntries x) q =
                  (entGet x.children (some x.dir) q).map entryOf := by
                rw [hx q, if_neg hqne]
              have hcx : chainFromO (some x.dir) q = some (e2 :: rest2) := by
                rw [hxe]
                exact hc2
              rw [h1, h2, entGet_chain_cons x.children (some x.dir) q e2 rest2
                hcx]
              show (Option.map entryOf (match lookupChild x.children e2 with
                  | none => none
                  | some c => descendNode c rest2)).or none =
                Option.map entryOf (descendNode x (e2 :: rest2))
              rw [Option.or_none, descendNode]
          · rw [if_neg hxe]
            have h1 : dirFind (nodeEntries x) q = none := by
              rw [hx q]
              by_cases hqd : q = x.dir
              · exfalso
                rw [hqd] at hc
                rw [chainFromO_hit pd x.dir hpx] at hc
                injection hc with hc
                injection hc with hc1 hc2
                exact hxe hc1
              · rw [if_neg hqd]
                cases hc2 : chainFromO (some x.dir) q with
                | none => rw [entGet_chain_none _ _ _ hc2]; rfl
                | some l2 =>
                  exfalso
                  have hcomp := chainFromO_compose pd x.dir q l2 hpx hc2
                  rw [hc] at hcomp
                  injection hcomp with hcomp
                  injection hcomp with hcomp1 hcomp2
                  exact hxe hcomp1.symm
            rw [h1, ihcs q, entGet_chain_cons cs pd q e rest hc]
            rfl

lemma node_dirFind : ∀ n : StatsNode, ∀ (b : String)
    (pd : Option (List Nat)), TreeInv b pd n → ∀ q : List Nat,
    dirFind (nodeEntries n) q =
      if q = n.dir then some (entryOf n)
      else (entGet n.children (some n.dir) q).map entryOf := by
  apply statsNodeRec
  intro bm d c s ch ih b pd hinv q
  have hinv2 := hinv
  rw [treeInv_mk] at hinv2
  obtain ⟨hpd, hb, hsort, hch⟩ := hinv2
  rw [nodeEntries]
  by_cases hq : q = d
  · subst hq
    rw [dirFind, List.find?_cons_of_pos _ (by simp)]
    simp [entryOf, StatsNode.dir, StatsNode.bom, StatsNode.count,
      StatsNode.size]
  · rw [dirFind] at *
    rw [List.find?_cons_of_neg _ (by simp; exact fun hcon => hq hcon.symm)]
    rw [if_neg (by simpa using hq)]
    have := forest_dirFind b (some d) ch
      (fun x hx => ih x hx b (some d) (hch x hx)) hsort hch q
    rw [dirFind] at this
    exact this

lemma root_dirFind (b : String) (R : StatsNode) (h : RootInv b R)
    (q : List Nat) :
    dirFind (nodeEntries R) q =
      if q = [47] then some (entryOf R)
      else (entGet R.children none q).map entryOf := by
  obtain ⟨hdir, hbom, hsort, hch⟩ := h
  cases R with
  | mk bm d c s ch =>
    simp only [StatsNode.dir] at hdir
    simp only [StatsNode.children] at hsort hch ⊢
    subst hdir
    rw [nodeEntries]
    by_cases hq : q = [47]
    · subst hq
      rw [dirFind, List.find?_cons_of_pos _ (by simp), if_pos rfl]
      rfl
    · rw [dirFind, List.find?_cons_of_neg _
        (by simp; exact fun hcon => hq hcon.symm), if_neg hq]
      have := forest_dirFind b none ch
        (fun x hx => node_dirFind x b none (hch x hx).2) hsort
        (fun x hx => (hch x hx).2) q
      rw [dirFind] at this
      exact this

lemma entryFind_eq_dirFind (es : List Entry) (b : String)
    (hb : ∀ e ∈ es, e.bom = b) (q : List Nat) :
    entryFind es b q = dirFind es q := by
  induction es with
  | nil => rfl
  | cons e es2 ih =>
    have hbe : e.bom = b := hb e (List.mem_cons_self e es2)
    by_cases h : e.dir = q
    · rw [entryFind, dirFind, List.find?_cons_of_pos _ (by simp [hbe, h]),
        List.find?_cons_of_pos _ (by simp [h])]
    · rw [entryFind, dirFind, List.find?_cons_of_neg _ (by simp [h]),
        List.find?_cons_of_neg _ (by simp [h])]
      exact ih (fun x hx => hb x (List.mem_cons_of_mem e hx))

lemma entryFind_none_of_bom (es : List Entry) (b0 b : String)
    (hb : ∀ e ∈ es, e.bom = b0) (hne : b0 ≠ b) (q : List Nat) :
    entryFind es b q = none := by
  rw [entryFind]
  apply List.find?_eq_none.mpr
  intro e he
  simp [hb e he]
  rintro hc
  exact absurd hc hne

lemma entryFind_append (l1 l2 : List Entry) (b : String) (q : List Nat) :
    entryFind (l1 ++ l2) b q = (entryFind l1 b q).or (entryFind l2 b q) := by
  rw [entryFind, entryFind, entryFind, List.find?_append]

lemma assocGet_cons (b0 : String) (R : StatsNode)
    (st : List (String × StatsNode)) (b : String) :
    assocGet ((b0, R) :: st) b = if b0 = b then some R else assocGet st b := by
  by_cases h : b0 = b
  · rw [assocGet, List.find?_cons_of_pos _ (by simp [h]), if_pos h]
    rfl
  · rw [assocGet, List.find?_cons_of_neg _ (by simp [h]), if_neg h]
    rfl

lemma state_entry_bom (st : List (String × StatsNode))
    (h : ∀ e ∈ st, RootInv e.1 e.2) :
    ∀ e ∈ entriesOfState st, ∃ p ∈ st, e.bom = p.1 := by
  induction st with
  | nil => intro e he; simp [entriesOfState, forestEntries] at he
  | cons x st2 ih =>
    obtain ⟨b0, R⟩ := x
    intro e he
    rw [entriesOfState_cons] at he
    rcases List.mem_append.mp he with h1 | h2
    · exact ⟨(b0, R), List.mem_cons_self _ _,
        root_entries_bom b0 R (h _ (List.mem_cons_self _ _)) e h1⟩
    · obtain ⟨p, hp, hb⟩ := ih (fun y hy => h y (List.mem_cons_of_mem _ hy))
        e h2
      exact ⟨p, List.mem_cons_of_mem _ hp, hb⟩

lemma state_entryFind (st : List (String × StatsNode)) (h : StInv st)
    (b : String) (q : List Nat) :
    entryFind (entriesOfState st) b q =
      match assocGet st b with
      | none => none
      | some R => dirFind (nodeEntries R) q := by
  obtain ⟨hpw, hroot⟩ := h
  induction st with
  | nil => rfl
  | cons x st2 ih =>
    obtain ⟨b0, R⟩ := x
    cases hpw with
    | cons hp1 hp2 =>
      have hR : RootInv b0 R := hroot (b0, R) (List.mem_cons_self _ _)
      rw [entriesOfState_cons, entryFind_append, assocGet_cons]
      by_cases hb : b0 = b
      · subst hb
        rw [if_pos (Eq.refl b0),
          entryFind_eq_dirFind (nodeEntries R) b0 (root_entries_bom b0 R hR) q]
        have h2 : entryFind (entriesOfState st2) b0 q = none := by
          rw [entryFind]
          apply List.find?_eq_none.mpr
          intro e he
          obtain ⟨p, hp, hbp⟩ := state_entry_bom st2
            (fun y hy => hroot y (List.mem_cons_of_mem _ hy)) e he
          simp [hbp]
          rintro hc
          exact absurd hc.symm (hp1 p hp)
        rw [h2, Option.or_none]
      · rw [if_neg hb,
          entryFind_none_of_bom (nodeEntries R) b0 b
            (root_entries_bom b0 R hR) hb q,
          Option.none_or]
        exact ih hp2 (fun y hy => hroot y (List.mem_cons_of_mem _ hy))

lemma treeInv_elim (b : String) (pd : Option (List Nat)) (n : StatsNode)
    (h : TreeInv b pd n) :
    parentOf n.dir = pd ∧ n.bom = b ∧
      n.children.Pairwise (fun x y => lexLt x.dir y.dir = true) ∧
      ∀ x ∈ n.children, TreeInv b (some n.dir) x := by
  cases n with
  | mk bm d c sz ch =>
    rw [treeInv_mk] at h
    simpa [StatsNode.dir, StatsNode.bom, StatsNode.children] using h

lemma entGet_eq_descend (n : StatsNode) (m q : List Nat)
    (rest : List (List Nat)) (h : chainFromO (some m) q = some rest) :
    entGet n.children (some m) q = descendNode n rest := by
  cases rest with
  | nil => exact absurd rfl (chainFromO_linked _ _ _ h).2.2
  | cons e rest2 =>
    rw [entGet_chain_cons _ _ _ _ _ h, descendNode]

lemma linked_mem_chain : ∀ (l : List (List Nat)) (m : List Nat),
    Linked (some m) l → ∀ x ∈ l, ∃ rest, chainFromO (some m) x = some rest := by
  intro l
  induction l with
  | nil => intro m _ x hx; cases hx
  | cons y ys ih =>
    intro m hlink x hx
    obtain ⟨hy, hys⟩ := hlink
    rcases List.mem_cons.mp hx with rfl | hx2
    · exact ⟨[x], chainFromO_hit (some m) x hy⟩
    · obtain ⟨r, hr⟩ := ih y hys x hx2
      exact ⟨y :: r, chainFromO_compose (some m) y x r hy hr⟩

lemma updF_cons_some (b : String) (s : Int) (d : List Nat)
    (ds : List (List Nat)) (ch : List StatsNode) (c : StatsNode)
    (h : lookupChild ch d = some c) :
    updF b s (d :: ds) ch =
      setChild ch d (.mk c.bom c.dir (c.count + 1) (c.size + s)
        (updF b s ds c.children)) := by
  simp only [updF, h, bumpNode, StatsNode.bom, StatsNode.dir, StatsNode.count,
    StatsNode.size, StatsNode.children]

lemma updF_cons_none (b : String) (s : Int) (d : List Nat)
    (ds : List (List Nat)) (ch : List StatsNode)
    (h : lookupChild ch d = none) :
    updF b s (d :: ds) ch =
      setChild ch d (.mk b d (0 + 1) (0 + s) (updF b s ds [])) := by
  simp only [updF, h, bumpNode, StatsNode.bom, StatsNode.dir, StatsNode.count,
    StatsNode.size, StatsNode.children]

lemma updF_core (b : String) (s : Int) (d : List Nat) (ds2 : List (List Nat))
    (pd : Option (List Nat)) (ch : List StatsNode) (NEW : StatsNode)
    (hpd : parentOf d = pd) (hlink2 : Linked (some d) ds2)
    (hsort : ch.Pairwise (fun x y => lexLt x.dir y.dir = true))
    (hinv : ∀ x ∈ ch, TreeInv b pd x)
    (hNd : NEW.dir = d) (hNinv : TreeInv b pd NEW)
    (hNentry : entryOf NEW = bumpEntry b d s ((entGet ch pd d).map entryOf))
    (hup : updF b s (d :: ds2) ch = setChild ch d NEW)
    (hin : ∀ q ∈ ds2, (entGet NEW.children (some d) q).map entryOf =
      some (bumpEntry b q s ((entGet ch pd q).map entryOf)))
    (hout : ∀ q, q ∉ ds2 → ∀ rest, chainFromO (some d) q = some rest →
      (entGet NEW.children (some d) q).map entryOf =
        (entGet ch pd q).map entryOf) :
    ((updF b s (d :: ds2) ch).Pairwise
        (fun x y => lexLt x.dir y.dir = true) ∧
      (∀ x ∈ updF b s (d :: ds2) ch, TreeInv b pd x)) ∧
    (∀ q ∈ d :: ds2,
      (entGet (updF b s (d :: ds2) ch) pd q).map entryOf =
        some (bumpEntry b q s ((entGet ch pd q).map entryOf))) ∧
    (∀ q, q ∉ d :: ds2 →
      (entGet (updF b s (d :: ds2) ch) pd q).map entryOf =
        (entGet ch pd q).map entryOf) := by
  rw [hup]
  refine ⟨⟨setChild_sorted ch d NEW hNd hsort, ?_⟩, ?_, ?_⟩
  · intro x hx
    rcases setChild_mem ch d NEW x hx with rfl | hx2
    · exact hNinv
    · exact hinv x hx2
  · intro q hq
    rcases List.mem_cons.mp hq with heq | hq2
    · subst heq
      rw [entGet_chain_cons (setChild ch q NEW) pd q q []
        (chainFromO_hit pd q hpd), lookupChild_setChild_self ch q NEW hNd,
        ← hNentry]
      rfl
    · obtain ⟨rest, hcq⟩ := linked_mem_chain ds2 d hlink2 q hq2
      have hcomp := chainFromO_compose pd d q rest hpd hcq
      rw [entGet_chain_cons (setChild ch d NEW) pd q d rest hcomp,
        lookupChild_setChild_self ch d NEW hNd]
      show (descendNode NEW rest).map entryOf = _
      rw [← entGet_eq_descend NEW d q rest hcq]
      exact hin q hq2
  · intro q hq
    have hqd : q ≠ d := fun hc => hq (by rw [hc]; exact List.mem_cons_self d ds2)
    have hqds2 : q ∉ ds2 := fun hc => hq (List.mem_cons_of_mem d hc)
    cases hc : chainFromO pd q with
    | none =>
      rw [entGet_chain_none (setChild ch d NEW) pd q hc,
        entGet_chain_none ch pd q hc]
    | some l =>
      cases l with
      | nil => exact absurd rfl (chainFromO_linked pd q [] hc).2.2
      | cons e rest =>
        obtain ⟨hpe, hbase, hstep⟩ := chainFromO_decompose pd q e rest hc
        by_cases hed : e = d
        · cases rest with
          | nil => exact absurd ((hbase rfl).trans hed) hqd
          | cons r2 rest2 =>
            have hcq2 : chainFromO (some d) q = some (r2 :: rest2) := by
              rw [← hed]
              exact hstep (by simp)
            rw [entGet_chain_cons (setChild ch d NEW) pd q e (r2 :: rest2) hc,
              hed, lookupChild_setChild_self ch d NEW hNd]
            show (descendNode NEW (r2 :: rest2)).map entryOf = _
            rw [← entGet_eq_descend NEW d q (r2 :: rest2) hcq2]
            exact hout q hqds2 (r2 :: rest2) hcq2
        · rw [entGet_chain_cons (setChild ch d NEW) pd q e rest hc,
            entGet_chain_cons ch pd q e rest hc,
            lookupChild_setChild_ne ch d e NEW hNd hed]

lemma updF_spec (b : String) (s : Int) :
    ∀ (ds : List (List Nat)) (pd : Option (List Nat)) (ch : List StatsNode),
      Linked pd ds →
      ch.Pairwise (fun x y => lexLt x.dir y.dir = true) →
      (∀ x ∈ ch, TreeInv b pd x) →
      ((updF b s ds ch).Pairwise (fun x y => lexLt x.dir y.dir = true) ∧
        (∀ x ∈ updF b s ds ch, TreeInv b pd x)) ∧
      (∀ q ∈ ds, (entGet (updF b s ds ch) pd q).map entryOf =
        some (bumpEntry b q s ((entGet ch pd q).map entryOf))) ∧
      (∀ q, q ∉ ds → (entGet (updF b s ds ch) pd q).map entryOf =
        (entGet ch pd q).map entryOf) := by
  intro ds
  induction ds with
  | nil =>
    intro pd ch _ hsort hinv
    exact ⟨⟨hsort, hinv⟩, fun q hq => absurd hq (List.not_mem_nil q),
      fun q _ => rfl⟩
  | cons d ds2 ih =>
    intro pd ch hlink hsort hinv
    obtain ⟨hpd, hlink2⟩ := hlink
    cases hlc : lookupChild ch d with
    | some c =>
      obtain ⟨hcmem, hcd⟩ := lookupChild_some ch d c hlc
      obtain ⟨hcp, hcb, hcsort, hcchinv⟩ := treeInv_elim b pd c (hinv c hcmem)
      have hcchinv2 : ∀ x ∈ c.children, TreeInv b (some d) x := by
        rw [← hcd]
        exact hcchinv
      obtain ⟨⟨ihsort, ihinv⟩, ihin, ihout⟩ :=
        ih (some d) c.children hlink2 hcsort hcchinv2
      have hup := updF_cons_some b s d ds2 ch c hlc
      have hgd : entGet ch pd d = some c := by
        rw [entGet_chain_cons ch pd d d [] (chainFromO_hit pd d hpd), hlc]
        rfl
      have hrel : ∀ q rest, chainFromO (some d) q = some rest →
          entGet ch pd q = entGet c.children (some d) q := by
        intro q rest hcq
        rw [entGet_chain_cons ch pd q d rest
          (chainFromO_compose pd d q rest hpd hcq), hlc,
          entGet_eq_descend c d q rest hcq]
      refine updF_core b s d ds2 pd ch _ hpd hlink2 hsort hinv ?_ ?_ ?_ hup
        ?_ ?_
      · exact hcd
      · rw [treeInv_mk]
        refine ⟨hcp, hcb, ihsort, ?_⟩
        rw [hcd]
        exact ihinv
      · rw [hgd]
        rfl
      · intro q hq
        obtain ⟨rest, hcq⟩ := linked_mem_chain ds2 d hlink2 q hq
        rw [hrel q rest hcq]
        exact ihin q hq
      · intro q hq rest hcq
        rw [hrel q rest hcq]
        exact ihout q hq
    | none =>
      obtain ⟨⟨ihsort, ihinv⟩, ihin, ihout⟩ :=
        ih (some d) [] hlink2 List.Pairwise.nil
          (fun x hx => absurd hx (List.not_mem_nil x))
      have hup := updF_cons_none b s d ds2 ch hlc
      have hgd : entGet ch pd d = none := by
        rw [entGet_chain_cons ch pd d d [] (chainFromO_hit pd d hpd), hlc]
      have hrel : ∀ q rest, chainFromO (some d) q = some rest →
          entGet ch pd q = entGet ([] : List StatsNode) (some d) q := by
        intro q rest hcq
        cases rest with
        | nil => exact absurd rfl (chainFromO_linked (some d) q [] hcq).2.2
        | cons e rest2 =>
          rw [entGet_chain_cons ch pd q d (e :: rest2)
            (chainFromO_compose pd d q (e :: rest2) hpd hcq), hlc,
            entGet_chain_cons ([] : List StatsNode) (some d) q e rest2 hcq]
          rfl
      refine updF_core b s d ds2 pd ch _ hpd hlink2 hsort hinv ?_ ?_ ?_ hup
        ?_ ?_
      · rfl
      · rw [treeInv_mk]
        exact ⟨hpd, rfl, ihsort, ihinv⟩
      · rw [hgd]
        show (⟨b, d, 0 + 1, 0 + s⟩ : Entry) = bumpEntry b d s none
        simp [bumpEntry]
      · intro q hq
        obtain ⟨rest, hcq⟩ := linked_mem_chain ds2 d hlink2 q hq
        rw [hrel q rest hcq]
        exact ihin q hq
      · intro q hq rest hcq
        rw [hrel q rest hcq]
        exact ihout q hq

lemma accumPath_nil (bom : String) (size : Int) (p : List Nat) (i : Nat)
    (n : StatsNode) : accumPath bom size p i [] n = n := rfl

lemma accumPath_cons_hit_some (bom : String) (size : Int) (p : List Nat)
    (i : Nat) (byte : Nat) (rest : List Nat) (n : StatsNode) (c : StatsNode)
    (hb : byte = 47 ∧ i ≠ 0)
    (hlc : lookupChild n.children (p.take i) = some c) :
    accumPath bom size p i (byte :: rest) n =
      .mk n.bom n.dir n.count n.size
        (setChild n.children (p.take i)
          (accumPath bom size p (i + 1) rest (bumpNode c size))) := by
  simp only [accumPath, if_pos hb, hlc]

lemma accumPath_cons_hit_none (bom : String) (size : Int) (p : List Nat)
    (i : Nat) (byte : Nat) (rest : List Nat) (n : StatsNode)
    (hb : byte = 47 ∧ i ≠ 0)
    (hlc : lookupChild n.children (p.take i) = none) :
    accumPath bom size p i (byte :: rest) n =
      .mk n.bom n.dir n.count n.size
        (setChild n.children (p.take i)
          (accumPath bom size p (i + 1) rest
            (bumpNode (.mk bom (p.take i) 0 0 []) size))) := by
  simp only [accumPath, if_pos hb, hlc]

lemma accumPath_cons_skip (bom : String) (size : Int) (p : List Nat)
    (i : Nat) (byte : Nat) (rest : List Nat) (n : StatsNode)
    (hb : ¬(byte = 47 ∧ i ≠ 0)) :
    accumPath bom size p i (byte :: rest) n =
      accumPath bom size p (i + 1) rest n := by
  simp only [accumPath, if_neg hb]

lemma accumPath_eq_updF (bom : String) (size : Int) (p : List Nat) :
    ∀ (suffix : List Nat) (i : Nat) (n : StatsNode),
      accumPath bom size p i suffix n =
        .mk n.bom n.dir n.count n.size
          (updF bom size (innerFrom p i suffix) n.children) := by
  intro suffix
  induction suffix with
  | nil =>
    intro i n
    rw [accumPath_nil, innerFrom, updF, statsNode_eta]
  | cons byte rest ih =>
    intro i n
    rw [innerFrom]
    by_cases hb : byte = 47 ∧ i ≠ 0
    · rw [if_pos hb]
      cases hlc : lookupChild n.children (p.take i) with
      | some c =>
        rw [accumPath_cons_hit_some bom size p i byte rest n c hb hlc,
          updF_cons_some bom size (p.take i) (innerFrom p (i + 1) rest)
            n.children c hlc, ih (i + 1) (bumpNode c size)]
        rfl
      | none =>
        rw [accumPath_cons_hit_none bom size p i byte rest n hb hlc,
          updF_cons_none bom size (p.take i) (innerFrom p (i + 1) rest)
            n.children hlc,
          ih (i + 1) (bumpNode (.mk bom (p.take i) 0 0 []) size)]
        rfl
    · rw [if_neg hb, accumPath_cons_skip bom size p i byte rest n hb]
      exact ih (i + 1) n

lemma entGet_nil (pd : Option (List Nat)) (q : List Nat) :
    entGet [] pd q = none := by
  cases hc : chainFromO pd q with
  | none => exact entGet_chain_none [] pd q hc
  | some l =>
    cases l with
    | nil => simp only [entGet, hc]
    | cons e rest =>
      rw [entGet_chain_cons [] pd q e rest hc]
      rfl

lemma updF_mem_dir (b : String) (s : Int) :
    ∀ (ds : List (List Nat)) (ch : List StatsNode) (x : StatsNode),
      x ∈ updF b s ds ch → x.dir ∈ ds ∨ x ∈ ch := by
  intro ds
  induction ds with
  | nil => intro ch x hx; exact Or.inr hx
  | cons d ds2 ih =>
    intro ch x hx
    cases hlc : lookupChild ch d with
    | some c =>
      rw [updF_cons_some b s d ds2 ch c hlc] at hx
      rcases setChild_mem ch d _ x hx with rfl | hx2
      · left
        show c.dir ∈ d :: ds2
        rw [(lookupChild_some ch d c hlc).2]
        exact List.mem_cons_self d ds2
      · exact Or.inr hx2
    | none =>
      rw [updF_cons_none b s d ds2 ch hlc] at hx
      rcases setChild_mem ch d _ x hx with rfl | hx2
      · exact Or.inl (List.mem_cons_self d ds2)
      · exact Or.inr hx2

lemma assocSet_mem : ∀ (st : List (String × StatsNode)) (b : String)
    (n : StatsNode) (e : String × StatsNode),
    e ∈ assocSet st b n → e = (b, n) ∨ e ∈ st := by
  intro st
  induction st with
  | nil =>
    intro b n e he
    simp [assocSet] at he
    exact Or.inl he
  | cons x rest ih =>
    intro b n e he
    rw [assocSet] at he
    by_cases hx : x.1 = b
    · rw [if_pos hx] at he
      rcases List.mem_cons.mp he with rfl | h2
      · exact Or.inl rfl
      · exact Or.inr (List.mem_cons_of_mem x h2)
    · rw [if_neg hx] at he
      rcases List.mem_cons.mp he with rfl | h2
      · exact Or.inr (List.mem_cons_self _ _)
      · rcases ih b n e h2 with h3 | h3
        · exact Or.inl h3
        · exact Or.inr (List.mem_cons_of_mem x h3)

lemma assocSet_pairwise : ∀ (st : List (String × StatsNode)) (b : String)
    (n : StatsNode), st.Pairwise (fun e1 e2 => e1.1 ≠ e2.1) →
    (assocSet st b n).Pairwise (fun e1 e2 => e1.1 ≠ e2.1) := by
  intro st
  induction st with
  | nil => intro b n _; simp [assocSet]
  | cons x rest ih =>
    intro b n hp
    cases hp with
    | cons h1 h2 =>
      rw [assocSet]
      by_cases hx : x.1 = b
      · rw [if_pos hx]
        refine List.Pairwise.cons ?_ h2
        intro y hy
        show b ≠ y.1
        rw [← hx]
        exact h1 y hy
      · rw [if_neg hx]
        refine List.Pairwise.cons ?_ (ih b n h2)
        intro y hy
        rcases assocSet_mem rest b n y hy with rfl | h3
        · show x.1 ≠ b
          exact hx
        · exact h1 y h3

lemma assocGet_set_self : ∀ (st : List (String × StatsNode)) (b : String)
    (n : StatsNode), assocGet (assocSet st b n) b = some n := by
  intro st
  induction st with
  | nil => intro b n; simp [assocSet, assocGet, List.find?]
  | cons x rest ih =>
    intro b n
    rw [assocSet]
    by_cases hx : x.1 = b
    · rw [if_pos hx, assocGet, List.find?_cons_of_pos _ (by simp)]
      rfl
    · rw [if_neg hx, assocGet, List.find?_cons_of_neg _ (by simp [hx])]
      exact ih b n

lemma assocGet_set_ne : ∀ (st : List (String × StatsNode)) (b b' : String)
    (n : StatsNode), b' ≠ b →
    assocGet (assocSet st b n) b' = assocGet st b' := by
  intro st
  induction st with
  | nil =>
    intro b b' n hne
    rw [show assocSet [] b n = [(b, n)] from rfl, assocGet,
      List.find?_cons_of_neg _ (by simp; exact fun hc => hne hc.symm)]
    rfl
  | cons x rest ih =>
    intro b b' n hne
    rw [assocSet]
    by_cases hx : x.1 = b
    · rw [if_pos hx, assocGet, assocGet,
        List.find?_cons_of_neg _ (by simp; exact fun hc => hne hc.symm),
        List.find?_cons_of_neg _ (by simp; rw [hx]; exact fun hc => hne hc.symm)]
    · rw [if_neg hx, assocGet, assocGet]
      by_cases hxb : x.1 = b'
      · rw [List.find?_cons_of_pos _ (by simp [hxb]),
          List.find?_cons_of_pos _ (by simp [hxb])]
      · rw [List.find?_cons_of_neg _ (by simp [hxb]),
          List.find?_cons_of_neg _ (by simp [hxb])]
        exact ih b b' n hne

lemma assocGet_mem : ∀ (st : List (String × StatsNode)) (b : String)
    (R : StatsNode), assocGet st b = some R → ∃ e ∈ st, e.1 = b ∧ e.2 = R := by
  intro st
  induction st with
  | nil => intro b R h; cases h
  | cons x rest ih =>
    intro b R h
    rw [assocGet] at h
    by_cases hx : x.1 = b
    · rw [List.find?_cons_of_pos _ (by simp [hx])] at h
      simp at h
      exact ⟨x, List.mem_cons_self _ _, hx, h⟩
    · rw [List.find?_cons_of_neg _ (by simp [hx])] at h
      obtain ⟨e, he, h1, h2⟩ := ih b R h
      exact ⟨e, List.mem_cons_of_mem x he, h1, h2⟩

lemma accumulateDirStats_eq_some (p : List Nat) (s : Int) (bom : String)
    (st : List (String × StatsNode)) (R : StatsNode)
    (h : assocGet st bom = some R) :
    accumulateDirStats p s bom st =
      assocSet st bom (accumPath bom s p 0 p (bumpNode R s)) := by
  simp only [accumulateDirStats, h]

lemma accumulateDirStats_eq_none (p : List Nat) (s : Int) (bom : String)
    (st : List (String × StatsNode)) (h : assocGet st bom = none) :
    accumulateDirStats p s bom st =
      assocSet st bom
        (accumPath bom s p 0 p (bumpNode (.mk bom [47] 0 0 []) s)) := by
  simp only [accumulateDirStats, h]

lemma root2_spec (b : String) (s : Int) (p : List Nat) (root0 : StatsNode)
    (hdbl : ¬dblStart p) (hR : RootInv b root0) :
    RootInv b (accumPath b s p 0 p (bumpNode root0 s)) ∧
    ∀ q, dirFind (nodeEntries (accumPath b s p 0 p (bumpNode root0 s))) q =
      if q ∈ dirsOf p
      then some (bumpEntry b q s (dirFind (nodeEntries root0) q))
      else dirFind (nodeEntries root0) q := by
  have hbump0 : bumpNode root0 s =
      .mk root0.bom root0.dir (root0.count + 1) (root0.size + s)
        root0.children := by
    cases root0; rfl
  have hr2 : accumPath b s p 0 p (bumpNode root0 s) =
      .mk root0.bom root0.dir (root0.count + 1) (root0.size + s)
        (updF b s (innerFrom p 0 p) root0.children) := by
    rw [accumPath_eq_updF b s p p 0 (bumpNode root0 s), hbump0]
    rfl
  have hRc := hR
  obtain ⟨hd0, hb0, hsort0, hch0⟩ := hR
  have hlink := innerDirs_linked p
  have hner := innerDirs_ne_root p hdbl
  obtain ⟨⟨usort, uinv⟩, uin, uout⟩ :=
    updF_spec b s (innerFrom p 0 p) none root0.children hlink hsort0
      (fun c hc => (hch0 c hc).2)
  have hinv2 : RootInv b (accumPath b s p 0 p (bumpNode root0 s)) := by
    rw [hr2]
    refine ⟨hd0, hb0, usort, ?_⟩
    intro c hc
    refine ⟨?_, uinv c hc⟩
    rcases updF_mem_dir b s (innerFrom p 0 p) root0.children c hc with h1 | h1
    · exact hner c.dir h1
    · exact (hch0 c h1).1
  refine ⟨hinv2, ?_⟩
  intro q
  rw [root_dirFind b _ hinv2 q, root_dirFind b root0 hRc q]
  by_cases hq : q = [47]
  · rw [if_pos hq,
      if_pos (show q ∈ dirsOf p by rw [hq, dirsOf]; exact List.mem_cons_self _ _),
      if_pos hq, hr2]
    show some (⟨root0.bom, root0.dir, root0.count + 1, root0.size + s⟩ : Entry)
      = _
    rfl
  · rw [if_neg hq, if_neg hq]
    by_cases hmem : q ∈ dirsOf p
    · rw [if_pos hmem, hr2]
      have hqin : q ∈ innerFrom p 0 p := by
        rw [dirsOf] at hmem
        rcases List.mem_cons.mp hmem with h | h
        · exact absurd h hq
        · exact h
      exact uin q hqin
    · rw [if_neg hmem, hr2]
      have hqout : q ∉ innerFrom p 0 p := fun hc =>
        hmem (by rw [dirsOf]; exact List.mem_cons_of_mem _ hc)
      exact uout q hqout

lemma accumulate_step (st : List (String × StatsNode)) (p : List Nat)
    (s : Int) (b0 : String) (hinv : StInv st) (hdbl : ¬dblStart p) :
    StInv (accumulateDirStats p s b0 st) ∧
    ∀ b q, entryFind (entriesOfState (accumulateDirStats p s b0 st)) b q =
      if b = b0 ∧ q ∈ dirsOf p
      then some (bumpEntry b q s (entryFind (entriesOfState st) b q))
      else entryFind (entriesOfState st) b q := by
  obtain ⟨hpw, hroot⟩ := hinv
  cases hag : assocGet st b0 with
  | some R =>
    have hRinv : RootInv b0 R := by
      obtain ⟨e, he, h1, h2⟩ := assocGet_mem st b0 R hag
      have := hroot e he
      rw [h1, h2] at this
      exact this
    obtain ⟨hR2inv, hR2find⟩ := root2_spec b0 s p R hdbl hRinv
    rw [accumulateDirStats_eq_some p s b0 st R hag]
    have hinv2 : StInv (assocSet st b0 (accumPath b0 s p 0 p (bumpNode R s))) := by
      refine ⟨assocSet_pairwise st b0 _ hpw, ?_⟩
      intro e he
      rcases assocSet_mem st b0 _ e he with rfl | h2
      · exact hR2inv
      · exact hroot e h2
    refine ⟨hinv2, ?_⟩
    intro b q
    by_cases hb : b = b0
    · subst hb
      have hnew : entryFind (entriesOfState
          (assocSet st b (accumPath b s p 0 p (bumpNode R s)))) b q =
          dirFind (nodeEntries (accumPath b s p 0 p (bumpNode R s))) q := by
        rw [state_entryFind _ hinv2 b q, assocGet_set_self]
      have hold : entryFind (entriesOfState st) b q =
          dirFind (nodeEntries R) q := by
        rw [state_entryFind st ⟨hpw, hroot⟩ b q, hag]
      rw [hnew, hold, hR2find q]
      by_cases hq : q ∈ dirsOf p
      · rw [if_pos hq, if_pos (show b = b ∧ q ∈ dirsOf p from ⟨rfl, hq⟩)]
      · rw [if_neg hq,
          if_neg (show ¬(b = b ∧ q ∈ dirsOf p) from fun hc => hq hc.2)]
    · have hnew : entryFind (entriesOfState
          (assocSet st b0 (accumPath b0 s p 0 p (bumpNode R s)))) b q =
          entryFind (entriesOfState st) b q := by
        rw [state_entryFind _ hinv2 b q, state_entryFind st ⟨hpw, hroot⟩ b q,
          assocGet_set_ne st b0 b _ hb]
      rw [hnew, if_neg (fun hc => hb hc.1)]
  | none =>
    have hRinv : RootInv b0 (.mk b0 [47] 0 0 []) :=
      ⟨rfl, rfl, List.Pairwise.nil, fun c hc => absurd hc (List.not_mem_nil c)⟩
    obtain ⟨hR2inv, hR2find⟩ := root2_spec b0 s p (.mk b0 [47] 0 0 []) hdbl hRinv
    rw [accumulateDirStats_eq_none p s b0 st hag]
    have hinv2 : StInv (assocSet st b0
        (accumPath b0 s p 0 p (bumpNode (.mk b0 [47] 0 0 []) s))) := by
      refine ⟨assocSet_pairwise st b0 _ hpw, ?_⟩
      intro e he
      rcases assocSet_mem st b0 _ e he with rfl | h2
      · exact hR2inv
      · exact hroot e h2
    have hfresh : ∀ q2 : List Nat,
        dirFind (nodeEntries (StatsNode.mk b0 [47] 0 0 [])) q2 =
          if q2 = [47] then some ⟨b0, [47], 0, 0⟩ else none := by
      intro q2
      by_cases h2 : q2 = [47]
      · rw [if_pos h2, nodeEntries, dirFind,
          List.find?_cons_of_pos _ (by simp [h2])]
      · rw [if_neg h2, nodeEntries, dirFind,
          List.find?_cons_of_neg _
            (by simp; exact fun hc => h2 hc.symm)]
        rfl
    refine ⟨hinv2, ?_⟩
    intro b q
    by_cases hb : b = b0
    · subst hb
      have hnew : entryFind (entriesOfState (assocSet st b
          (accumPath b s p 0 p (bumpNode (.mk b [47] 0 0 []) s)))) b q =
          dirFind (nodeEntries
            (accumPath b s p 0 p (bumpNode (.mk b [47] 0 0 []) s))) q := by
        rw [state_entryFind _ hinv2 b q, assocGet_set_self]
      have hold : entryFind (entriesOfState st) b q = none := by
        rw [state_entryFind st ⟨hpw, hroot⟩ b q, hag]
      rw [hnew, hold, hR2find q, hfresh q]
      by_cases hq : q ∈ dirsOf p
      · rw [if_pos hq, if_pos (show b = b ∧ q ∈ dirsOf p from ⟨rfl, hq⟩)]
        by_cases h47 : q = [47]
        · rw [if_pos h47]
          simp [bumpEntry, h47]
        · rw [if_neg h47]
      · rw [if_neg hq,
          if_neg (show ¬(b = b ∧ q ∈ dirsOf p) from fun hc => hq hc.2),
          if_neg (show ¬(q = [47]) from fun h47 =>
            hq (by rw [h47, dirsOf]; exact List.mem_cons_self _ _))]
    · have hnew : entryFind (entriesOfState (assocSet st b0
          (accumPath b0 s p 0 p (bumpNode (.mk b0 [47] 0 0 []) s)))) b q =
          entryFind (entriesOfState st) b q := by
        rw [state_entryFind _ hinv2 b q, state_entryFind st ⟨hpw, hroot⟩ b q,
          assocGet_set_ne st b0 b _ hb]
      rw [hnew, if_neg (fun hc => hb hc.1)]

lemma runAggregation_append (rs : List RecordR) (r : RecordR) :
    runAggregation (rs ++ [r]) =
      accumulateDirStats r.path r.size r.bom (runAggregation rs) := by
  rw [runAggregation, runAggregation, List.foldl_append]
  rfl

lemma specEntry_append_match (rs : List RecordR) (r : RecordR) (b : String)
    (q : List Nat) (hm : r.bom = b ∧ q ∈ dirsOf r.path) :
    specEntry (rs ++ [r]) b q =
      some (bumpEntry b q r.size (specEntry rs b q)) := by
  have hc : specCount (rs ++ [r]) b q = specCount rs b q + 1 := by
    rw [specCount, specCount, List.filter_append]
    simp [hm.1, hm.2]
  have hs : specSize (rs ++ [r]) b q = specSize rs b q + r.size := by
    rw [specSize, specSize, List.filter_append]
    simp [hm.1, hm.2]
  rw [specEntry, specEntry, hc, hs]
  by_cases h0 : specCount rs b q = 0
  · have hf : rs.filter (fun r2 => r2.bom = b ∧ q ∈ dirsOf r2.path) = [] :=
      List.length_eq_zero.mp h0
    have hsize0 : specSize rs b q = 0 := by
      rw [specSize, hf]
      rfl
    rw [if_neg (by omega), if_pos h0]
    simp [bumpEntry, h0, hsize0]
  · rw [if_neg (by omega), if_neg h0]
    simp [bumpEntry]

lemma specEntry_append_nomatch (rs : List RecordR) (r : RecordR) (b : String)
    (q : List Nat) (hm : ¬(r.bom = b ∧ q ∈ dirsOf r.path)) :
    specEntry (rs ++ [r]) b q = specEntry rs b q := by
  have hc : specCount (rs ++ [r]) b q = specCount rs b q := by
    rw [specCount, specCount, List.filter_append]
    simp [hm]
  have hs : specSize (rs ++ [r]) b q = specSize rs b q := by
    rw [specSize, specSize, List.filter_append]
    simp [hm]
  rw [specEntry, specEntry, hc, hs]

lemma runAggregation_spec :
    ∀ rs : List RecordR, (∀ r ∈ rs, ¬dblStart r.path) →
      StInv (runAggregation rs) ∧
      (∀ b q, entryFind (entriesOfState (runAggregation rs)) b q =
        specEntry rs b q) := by
  intro rs
  induction rs using List.reverseRecOn with
  | nil =>
    intro _
    refine ⟨⟨List.Pairwise.nil, fun e he => absurd he (List.not_mem_nil e)⟩,
      ?_⟩
    intro b q
    rfl
  | append_singleton rs r ih =>
    intro hdbl
    have hdbl1 : ∀ r2 ∈ rs, ¬dblStart r2.path := fun r2 h2 =>
      hdbl r2 (List.mem_append_left _ h2)
    have hdblr : ¬dblStart r.path := hdbl r (by simp)
    obtain ⟨hinv, hfind⟩ := ih hdbl1
    obtain ⟨hinv2, hstep⟩ :=
      accumulate_step (runAggregation rs) r.path r.size r.bom hinv hdblr
    rw [runAggregation_append]
    refine ⟨hinv2, ?_⟩
    intro b q
    rw [hstep b q]
    by_cases hm : b = r.bom ∧ q ∈ dirsOf r.path
    · rw [if_pos hm, hfind b q,
        specEntry_append_match rs r b q ⟨hm.1.symm, hm.2⟩]
    · rw [if_neg hm, hfind b q,
        specEntry_append_nomatch rs r b q (fun hc => hm ⟨hc.1.symm, hc.2⟩)]

/-- Claim C1 (amended): for every accepted record whose path does not begin
with an empty component ("//"), one aggregation step updates exactly the
entries
keyed (label, D) with D ranging over the record's ancestor directories —
the root always included, the leaf name excluded: a key's entry is created
on first sight with Count 1 and Size the record's size (bumpEntry of none),
otherwise its Count is incremented by 1 and its Size by the record's size
(bumpEntry of the previous entry); lookups of every other key are
unchanged. In particular (Scenario A), a single record with label "X",
path "/a/b/f" and size 100 yields exactly three Stats entries — "/", "/a"
and "/a/b" — each with Count 1 and Size 100. -/
theorem aggregation_per_record_update :
    (∀ (rs : List RecordR) (r : RecordR),
      (∀ r2 ∈ rs ++ [r], ¬dblStart r2.path) →
      ∀ (b : String) (q : List Nat),
        entryFind (entriesOfState (runAggregation (rs ++ [r]))) b q =
          if b = r.bom ∧ q ∈ dirsOf r.path
          then some (bumpEntry b q r.size
            (entryFind (entriesOfState (runAggregation rs)) b q))
          else entryFind (entriesOfState (runAggregation rs)) b q) ∧
    entriesOfState (runAggregation [⟨"X", strBytes "/a/b/f", 100⟩]) =
      [⟨"X", strBytes "/", 1, 100⟩, ⟨"X", strBytes "/a", 1, 100⟩,
        ⟨"X", strBytes "/a/b", 1, 100⟩] := by
  constructor
  · intro rs r hdbl b q
    have hinv := (runAggregation_spec rs
      (fun r2 h2 => hdbl r2 (List.mem_append_left _ h2))).1
    have hstep := (accumulate_step (runAggregation rs) r.path r.size r.bom
      hinv (hdbl r (by simp))).2 b q
    rw [runAggregation_append]
    exact hstep
  · decide

/-- Claim C1 witness: the update characterization applied to the single
record ("X", "/a/b/f", 100) appended to the empty run, at the key
("X", "/"), with the path hypothesis discharged concretely. -/
theorem aggregation_per_record_update_witness :
    (∀ r2 ∈ ([] : List RecordR) ++
        [(⟨"X", strBytes "/a/b/f", 100⟩ : RecordR)], ¬dblStart r2.path) ∧
    entryFind (entriesOfState (runAggregation
        (([] : List RecordR) ++ [(⟨"X", strBytes "/a/b/f", 100⟩ : RecordR)])))
        "X" [47] =
      (if "X" = (⟨"X", strBytes "/a/b/f", 100⟩ : RecordR).bom ∧
          [47] ∈ dirsOf (⟨"X", strBytes "/a/b/f", 100⟩ : RecordR).path
        then some (bumpEntry "X" [47]
          (⟨"X", strBytes "/a/b/f", 100⟩ : RecordR).size
          (entryFind (entriesOfState (runAggregation ([] : List RecordR)))
            "X" [47]))
        else entryFind (entriesOfState (runAggregation ([] : List RecordR)))
          "X" [47]) :=
  ⟨by decide,
    aggregation_per_record_update.1 [] ⟨"X", strBytes "/a/b/f", 100⟩
      (by decide) "X" [47]⟩

/-- Claim C1 counterexample: the unamended claim quantifies over every
accepted record, but a record whose path is "//x" (bytes 47,47,120)
refutes the claimed per-key behaviour. After the record ("z", "/y", 5) the
key ("z", "/") already has its entry with Count 1. Processing the further
record ("z", "//x", 5) — whose ancestor-directory list is just "/",
twice — must, per the claim, only increment that entry; instead the code
bumps the root entry and additionally creates a second Stats entry with
the very same key ("z", "/"), so the step does not update exactly one
entry per ancestor key and creates an entry for a key it has already
seen. -/
theorem per_record_update_counterexample :
    entriesOfState (runAggregation [(⟨"z", [47, 121], 5⟩ : RecordR)]) =
      [⟨"z", [47], 1, 5⟩] ∧
    dirsOf ([47, 47, 120] : List Nat) = [[47], [47]] ∧
    entriesOfState (runAggregation [(⟨"z", [47, 121], 5⟩ : RecordR),
        ⟨"z", [47, 47, 120], 5⟩]) =
      [⟨"z", [47], 2, 10⟩, ⟨"z", [47], 1, 5⟩] := by
  exact ⟨by decide, by decide, by decide⟩

/-- Claim C3 (amended): after aggregating any records none of whose paths
begins with an empty first component ("//"), no two Stats entries share
the same (label, directory) key. The unamended claim, quantified over
every input, is refuted by a "//"-path record: see the accompanying
counterexample, in which the root entry "/" and a child entry "/" coexist. -/
theorem aggregation_no_duplicate_keys (rs : List RecordR)
    (h : ∀ r ∈ rs, ¬dblStart r.path) :
    (keysOf (entriesOfState (runAggregation rs))).Nodup :=
  state_keys_nodup _ (runAggregation_spec rs h).1

/-- Claim C3 witness: the amended no-duplicates theorem applied to two
concrete records with ordinary absolute paths. -/
theorem aggregation_no_duplicate_keys_witness :
    (∀ r ∈ [(⟨"X", strBytes "/a/b/f", 100⟩ : RecordR),
        ⟨"Y", strBytes "/a/f", 7⟩], ¬dblStart r.path) ∧
    (keysOf (entriesOfState (runAggregation
      [(⟨"X", strBytes "/a/b/f", 100⟩ : RecordR),
        ⟨"Y", strBytes "/a/f", 7⟩]))).Nodup :=
  ⟨by decide,
    aggregation_no_duplicate_keys
      [⟨"X", strBytes "/a/b/f", 100⟩, ⟨"Y", strBytes "/a/f", 7⟩] (by decide)⟩

unseal List.merge List.mergeSort in
/-- Claim C3 counterexample: a stream holding one valid record whose
decoded path is "//x" (base64 Ly94) drives the full pipeline to a result
with two Stats entries both keyed ("z", "/"): the root entry and a child
entry created for the path's empty first component. The claim's
"no duplicates for every input stream" is therefore false as stated. -/
theorem duplicate_keys_on_double_slash :
    BoMDirectoryStats newStatsParser [dblSlashLine] ⟨[(7, "z")]⟩ 100 1000 =
      .ok [⟨"z", [47], 1, 5⟩, ⟨"z", [47], 1, 5⟩] ∧
    ¬ (keysOf [(⟨"z", [47], 1, 5⟩ : Entry), ⟨"z", [47], 1, 5⟩]).Nodup := by
  exact ⟨by decide, by decide⟩

lemma sum_map_add {α M : Type} [AddCommMonoid M] (l : List α) (f g : α → M) :
    (l.map (fun x => f x + g x)).sum = (l.map f).sum + (l.map g).sum := by
  induction l with
  | nil => simp
  | cons a t ih =>
    rw [List.map_cons, List.map_cons, List.map_cons, List.sum_cons,
      List.sum_cons, List.sum_cons, ih, add_add_add_comm]

lemma list_sum_comm {α β M : Type} [AddCommMonoid M] (l1 : List α)
    (l2 : List β) (f : α → β → M) :
    (l1.map (fun a => (l2.map (fun b2 => f a b2)).sum)).sum =
      (l2.map (fun b2 => (l1.map (fun a => f a b2)).sum)).sum := by
  induction l1 with
  | nil =>
    simp
  | cons a t ih =>
    rw [List.map_cons, List.sum_cons, ih, ← sum_map_add]
    simp only [List.map_cons, List.sum_cons]

lemma sum_ite_zero {α M : Type} [AddCommMonoid M] (w : α → M)
    (l : List α) (p : α → Prop) [DecidablePred p]
    (h : ∀ x ∈ l, ¬ p x) :
    (l.map (fun x => if p x then w x else 0)).sum = 0 := by
  induction l with
  | nil => rfl
  | cons a t ih =>
    rw [List.map_cons, List.sum_cons, if_neg (h a (List.mem_cons_self a t)),
      ih (fun x hx => h x (List.mem_cons_of_mem a hx)), zero_add]

lemma sum_ite_one {α M : Type} [AddCommMonoid M] (w : M) :
    ∀ (l : List α) (p : α → Prop) [DecidablePred p], l.Nodup →
      (∀ x ∈ l, ∀ y ∈ l, p x → p y → x = y) →
      ∀ x0 ∈ l, p x0 →
      (l.map (fun x => if p x then w else 0)).sum = w := by
  intro l
  induction l with
  | nil => intro p _ _ _ x0 hx0; cases hx0
  | cons a t ih =>
    intro p _ hnd huniq x0 hx0 hp0
    cases hnd with
    | cons hna hndt =>
      rw [List.map_cons, List.sum_cons]
      rcases List.mem_cons.mp hx0 with heq | hx0t
      · have hpa : p a := heq ▸ hp0
        have h0 : ∀ y ∈ t, ¬ p y := by
          intro y hy hpy
          have hya := huniq y (List.mem_cons_of_mem a hy) a
            (List.mem_cons_self a t) hpy hpa
          exact hna y hy hya.symm
        rw [if_pos hpa, sum_ite_zero (fun _ => w) t p h0, add_zero]
      · have hnpa : ¬ p a := by
          intro hpa
          have := huniq a (List.mem_cons_self a t) x0
            (List.mem_cons_of_mem a hx0t) hpa hp0
          exact hna x0 hx0t this
        rw [if_neg hnpa, zero_add]
        exact ih p hndt
          (fun x hx y hy => huniq x (List.mem_cons_of_mem a hx) y
            (List.mem_cons_of_mem a hy)) x0 hx0t hp0

lemma specCount_cons (r : RecordR) (rs : List RecordR) (b : String)
    (q : List Nat) :
    specCount (r :: rs) b q =
      (if r.bom = b ∧ q ∈ dirsOf r.path then 1 else 0) + specCount rs b q := by
  rw [specCount, specCount, List.filter_cons]
  by_cases h : r.bom = b ∧ q ∈ dirsOf r.path
  · simp [h]
    omega
  · simp [h]

lemma specSize_cons (r : RecordR) (rs : List RecordR) (b : String)
    (q : List Nat) :
    specSize (r :: rs) b q =
      (if r.bom = b ∧ q ∈ dirsOf r.path then r.size else 0) +
        specSize rs b q := by
  rw [specSize, specSize, List.filter_cons]
  by_cases h : r.bom = b ∧ q ∈ dirsOf r.path
  · simp [h]
  · simp [h]

lemma directCount_cons (r : RecordR) (rs : List RecordR) (b : String)
    (D : List Nat) :
    directCount (r :: rs) b D =
      (if r.bom = b ∧ parentD r.path = D then 1 else 0) +
        directCount rs b D := by
  rw [directCount, directCount, List.filter_cons]
  by_cases h : r.bom = b ∧ parentD r.path = D
  · simp [h]
    omega
  · simp [h]

lemma directSize_cons (r : RecordR) (rs : List RecordR) (b : String)
    (D : List Nat) :
    directSize (r :: rs) b D =
      (if r.bom = b ∧ parentD r.path = D then r.size else 0) +
        directSize rs b D := by
  rw [directSize, directSize, List.filter_cons]
  by_cases h : r.bom = b ∧ parentD r.path = D
  · simp [h]
  · simp [h]

lemma specCount_eq_sum (rs : List RecordR) (b : String) (q : List Nat) :
    specCount rs b q =
      (rs.map (fun r => if r.bom = b ∧ q ∈ dirsOf r.path
        then (1 : Nat) else 0)).sum := by
  induction rs with
  | nil => rfl
  | cons r t ih => rw [specCount_cons, List.map_cons, List.sum_cons, ih]

lemma specSize_eq_sum (rs : List RecordR) (b : String) (q : List Nat) :
    specSize rs b q =
      (rs.map (fun r => if r.bom = b ∧ q ∈ dirsOf r.path
        then r.size else 0)).sum := by
  induction rs with
  | nil => rfl
  | cons r t ih => rw [specSize_cons, List.map_cons, List.sum_cons, ih]

lemma directCount_eq_sum (rs : List RecordR) (b : String) (D : List Nat) :
    directCount rs b D =
      (rs.map (fun r => if r.bom = b ∧ parentD r.path = D
        then (1 : Nat) else 0)).sum := by
  induction rs with
  | nil => rfl
  | cons r t ih => rw [directCount_cons, List.map_cons, List.sum_cons, ih]

lemma directSize_eq_sum (rs : List RecordR) (b : String) (D : List Nat) :
    directSize rs b D =
      (rs.map (fun r => if r.bom = b ∧ parentD r.path = D
        then r.size else 0)).sum := by
  induction rs with
  | nil => rfl
  | cons r t ih => rw [directSize_cons, List.map_cons, List.sum_cons, ih]

lemma specCount_pos (rs : List RecordR) (b : String) (q : List Nat)
    (r : RecordR) (hr : r ∈ rs) (hb : r.bom = b) (hq : q ∈ dirsOf r.path) :
    specCount rs b q ≠ 0 := by
  rw [specCount]
  intro h
  rw [List.length_eq_zero] at h
  have : r ∈ rs.filter (fun r2 => r2.bom = b ∧ q ∈ dirsOf r2.path) := by
    rw [List.mem_filter]
    exact ⟨hr, by simp [hb, hq]⟩
  rw [h] at this
  cases this

lemma specEntry_some_elim (rs : List RecordR) (b : String) (q : List Nat)
    (e : Entry) (h : specEntry rs b q = some e) :
    e.bom = b ∧ e.dir = q ∧ e.count = specCount rs b q ∧
      e.size = specSize rs b q := by
  rw [specEntry] at h
  by_cases h0 : specCount rs b q = 0
  · rw [if_pos h0] at h
    cases h
  · rw [if_neg h0] at h
    injection h with h
    rw [← h]
    exact ⟨rfl, rfl, rfl, rfl⟩

lemma spec_mono (rs : List RecordR) (b : String) (C D : List Nat)
    (himp : ∀ r ∈ rs, r.bom = b → C ∈ dirsOf r.path → D ∈ dirsOf r.path)
    (hsz : ∀ r ∈ rs, 0 ≤ r.size) :
    specCount rs b C ≤ specCount rs b D ∧
      specSize rs b C ≤ specSize rs b D := by
  induction rs with
  | nil => exact ⟨le_rfl, le_rfl⟩
  | cons r t ih =>
    obtain ⟨ih1, ih2⟩ := ih (fun r2 h2 => himp r2 (List.mem_cons_of_mem r h2))
      (fun r2 h2 => hsz r2 (List.mem_cons_of_mem r h2))
    rw [specCount_cons, specCount_cons, specSize_cons, specSize_cons]
    have hrs := hsz r (List.mem_cons_self r t)
    constructor
    · by_cases hc : r.bom = b ∧ C ∈ dirsOf r.path
      · rw [if_pos hc,
          if_pos ⟨hc.1, himp r (List.mem_cons_self r t) hc.1 hc.2⟩]
        omega
      · rw [if_neg hc]
        by_cases hd : r.bom = b ∧ D ∈ dirsOf r.path
        · rw [if_pos hd]; omega
        · rw [if_neg hd]; omega
    · by_cases hc : r.bom = b ∧ C ∈ dirsOf r.path
      · rw [if_pos hc,
          if_pos ⟨hc.1, himp r (List.mem_cons_self r t) hc.1 hc.2⟩]
        omega
      · rw [if_neg hc]
        by_cases hd : r.bom = b ∧ D ∈ dirsOf r.path
        · rw [if_pos hd]; omega
        · rw [if_neg hd]; omega

lemma parentOf_mem_inner (d r : List Nat) (h : parentOf d = some r) :
    r ∈ innerFrom d 0 d := by
  obtain ⟨j, hj1, hj2, hj3, hj4⟩ := parentOf_mem d r h
  rw [innerDirs_mem_iff]
  exact ⟨j, hj1, hj2, hj3, hj4⟩

lemma parent_closure (p : List Nat) (C X : List Nat)
    (hC : C ∈ innerFrom p 0 p) (hX : parentOf C = some X) :
    X ∈ innerFrom p 0 p := by
  rw [innerDirs_mem_iff] at hC
  obtain ⟨j, hj1, hj2, hj3, hj4⟩ := hC
  subst hj4
  have hXmem : X ∈ innerFrom (p.take j) 0 (p.take j) :=
    parentOf_mem_inner (p.take j) X hX
  rw [take_innerDirs_mem_iff p j (le_of_lt hj1)] at hXmem
  obtain ⟨j2, h1, h2, h3, h4⟩ := hXmem
  rw [innerDirs_mem_iff]
  exact ⟨j2, by omega, h2, h3, h4⟩

lemma linked_mem_parent : ∀ (l : List (List Nat)) (m : List Nat),
    Linked (some m) l → ∀ C ∈ l,
      ∃ y, parentOf C = some y ∧ (y = m ∨ y ∈ l) := by
  intro l
  induction l with
  | nil => intro m _ C hC; cases hC
  | cons x xs ih =>
    intro m hlink C hC
    obtain ⟨hx, hxs⟩ := hlink
    rcases List.mem_cons.mp hC with rfl | hC2
    · exact ⟨m, hx, Or.inl rfl⟩
    · obtain ⟨y, hy1, hy2⟩ := ih x hxs C hC2
      rcases hy2 with rfl | hy3
      · exact ⟨y, hy1, Or.inr (List.mem_cons_self y xs)⟩
      · exact ⟨y, hy1, Or.inr (List.mem_cons_of_mem x hy3)⟩

lemma linked_parent_inj : ∀ (l : List (List Nat)) (pd : Option (List Nat)),
    Linked pd l → l.Pairwise (fun x y => x.length < y.length) →
    ∀ C1 ∈ l, ∀ C2 ∈ l, parentOf C1 = parentOf C2 → C1 = C2 := by
  intro l
  induction l with
  | nil => intro pd _ _ C1 hC1; cases hC1
  | cons x xs ih =>
    intro pd hlink hpw C1 hC1 C2 hC2 heq
    obtain ⟨hx, hxs⟩ := hlink
    cases hpw with
    | cons hp1 hp2 =>
      have hhead : ∀ C ∈ xs, parentOf C ≠ parentOf x := by
        intro C hC hcon
        obtain ⟨y, hy1, hy2⟩ := linked_mem_parent xs x hxs C hC
        rw [hy1] at hcon
        have hylt := parentOf_length_lt x y hcon.symm
        rcases hy2 with rfl | hy3
        · omega
        · have := hp1 y hy3
          omega
      rcases List.mem_cons.mp hC1 with rfl | h1
      · rcases List.mem_cons.mp hC2 with rfl | h2
        · rfl
        · exact absurd heq.symm (hhead C2 h2)
      · rcases List.mem_cons.mp hC2 with rfl | h2
        · exact absurd heq (hhead C1 h1)
        · exact ih (some x) hxs hp2 C1 h1 C2 h2 heq

lemma linked_succ_mem : ∀ (l : List (List Nat)) (pd : Option (List Nat)),
    Linked pd l → ∀ D ∈ l, l.getLast? ≠ some D →
      ∃ C ∈ l, parentOf C = some D := by
  intro l
  induction l with
  | nil => intro pd _ D hD; cases hD
  | cons x xs ih =>
    intro pd hlink D hD hlast
    obtain ⟨hx, hxs⟩ := hlink
    cases xs with
    | nil =>
      rcases List.mem_cons.mp hD with rfl | h2
      · exact absurd rfl hlast
      · cases h2
    | cons y ys =>
      rw [List.getLast?_cons_cons] at hlast
      rcases List.mem_cons.mp hD with rfl | h2
      · exact ⟨y, List.mem_cons_of_mem D (List.mem_cons_self y ys), hxs.1⟩
      · obtain ⟨C, hC1, hC2⟩ := ih (some x) hxs D h2 hlast
        exact ⟨C, List.mem_cons_of_mem x hC1, hC2⟩

lemma parentD_mem_dirs (p : List Nat) : parentD p ∈ dirsOf p := by
  rw [parentD, dirsOf]
  cases h : parentOf p with
  | none => exact List.mem_cons_self _ _
  | some x => exact List.mem_cons_of_mem _ (parentOf_mem_inner p x h)

lemma chain_succ (p : List Nat) (D : List Nat) (hD : D ∈ dirsOf p)
    (hlast : parentD p ≠ D) :
    ∃ C ∈ innerFrom p 0 p, parentD C = D := by
  rw [dirsOf] at hD
  rcases List.mem_cons.mp hD with rfl | hD2
  · cases hin : innerFrom p 0 p with
    | nil =>
      exfalso
      apply hlast
      rw [parentD, parentOf, hin]
      rfl
    | cons C0 rest =>
      have hlk := innerDirs_linked p
      rw [hin] at hlk
      refine ⟨C0, by simp [hin], ?_⟩
      rw [parentD, hlk.1]
      rfl
  · have hlk := innerDirs_linked p
    have hne : (innerFrom p 0 p).getLast? ≠ some D := by
      intro hcon
      apply hlast
      rw [parentD, parentOf, hcon]
      rfl
    obtain ⟨C, hC1, hC2⟩ := linked_succ_mem (innerFrom p 0 p) none hlk D
      hD2 hne
    refine ⟨C, hC1, ?_⟩
    rw [parentD, hC2]
    rfl

lemma parentD_child_in_dirs (p : List Nat) (C : List Nat)
    (hC : C ∈ innerFrom p 0 p) : parentD C ∈ dirsOf p := by
  rw [parentD]
  cases h : parentOf C with
  | none => rw [dirsOf]; exact List.mem_cons_self _ _
  | some X =>
    rw [dirsOf]
    exact List.mem_cons_of_mem _ (parent_closure p C X hC h)

lemma no_succ_of_last (p : List Nat) (hdbl : ¬dblStart p) (C : List Nat)
    (hC : C ∈ innerFrom p 0 p) : parentD C ≠ parentD p := by
  intro hcon
  have hpw := innerFrom_pairwise_len p p 0 (by simp)
  have hlast : (innerFrom p 0 p).getLast? = parentOf p := by
    rw [parentOf]
  cases hp : parentOf p with
  | none =>
    rw [parentOf] at hp
    rw [List.getLast?_eq_none_iff] at hp
    rw [hp] at hC
    cases hC
  | some L =>
    have hL : parentD p = L := by rw [parentD, hp]; rfl
    have hLmem : L ∈ innerFrom p 0 p := parentOf_mem_inner p L hp
    have hLmax : ∀ x ∈ innerFrom p 0 p, x.length ≤ L.length := by
      intro x hx
      exact getLast?_max_len (innerFrom p 0 p) hpw L (by rw [hlast, hp]) x hx
    cases hpc : parentOf C with
    | none =>
      rw [parentD, hpc] at hcon
      rw [hL] at hcon
      exact innerDirs_ne_root p hdbl L hLmem hcon.symm
    | some X =>
      rw [parentD, hpc] at hcon
      rw [hL] at hcon
      have hXL : X = L := hcon
      have h1 := parentOf_length_lt C X hpc
      have h2 := hLmax C hC
      rw [hXL] at h1
      omega

lemma succ_unique (p : List Nat) (hdbl : ¬dblStart p) (C1 C2 : List Nat)
    (h1 : C1 ∈ innerFrom p 0 p) (h2 : C2 ∈ innerFrom p 0 p)
    (heq : parentD C1 = parentD C2) : C1 = C2 := by
  have hlk := innerDirs_linked p
  have hpw := innerFrom_pairwise_len p p 0 (by simp)
  cases hp1 : parentOf C1 with
  | none =>
    cases hp2 : parentOf C2 with
    | none =>
      exact linked_parent_inj (innerFrom p 0 p) none hlk hpw C1 h1 C2 h2
        (by rw [hp1, hp2])
    | some X =>
      rw [parentD, parentD, hp1, hp2] at heq
      have hX : X = [47] := by simpa using heq.symm
      rw [hX] at hp2
      exact absurd (parent_closure p C2 [47] h2 hp2)
        (fun hc => innerDirs_ne_root p hdbl [47] hc rfl)
  | some X =>
    cases hp2 : parentOf C2 with
    | none =>
      rw [parentD, parentD, hp1, hp2] at heq
      have hX : X = [47] := by simpa using heq
      rw [hX] at hp1
      exact absurd (parent_closure p C1 [47] h1 hp1)
        (fun hc => innerDirs_ne_root p hdbl [47] hc rfl)
    | some X2 =>
      rw [parentD, parentD, hp1, hp2] at heq
      have hXX : X = X2 := heq
      exact linked_parent_inj (innerFrom p 0 p) none hlk hpw C1 h1 C2 h2
        (by rw [hp1, hp2, hXX])

lemma ancestor_in_dirs_aux (p : List Nat) :
    ∀ (l : List (List Nat)) (D C : List Nat), Linked (some D) l →
      l.getLast? = some C → C ∈ innerFrom p 0 p →
      D ∈ innerFrom p 0 p := by
  intro l
  induction l with
  | nil => intro D C _ hl; cases hl
  | cons x xs ih =>
    intro D C hlink hlast hC
    obtain ⟨hx, hxs⟩ := hlink
    cases xs with
    | nil =>
      have hxC : x = C := by simpa using hlast
      subst hxC
      exact parent_closure p x D hC hx
    | cons y ys =>
      rw [List.getLast?_cons_cons] at hlast
      have hxmem := ih x C hxs hlast hC
      exact parent_closure p x D hxmem hx

lemma ancestor_in_dirs (p : List Nat) (D C : List Nat)
    (hC : C ∈ dirsOf p) (l : List (List Nat))
    (hchain : chainFromO (some D) C = some l) : D ∈ dirsOf p := by
  have hCin : C ∈ innerFrom p 0 p := by
    rw [dirsOf] at hC
    rcases List.mem_cons.mp hC with heq | h2
    · exfalso
      subst heq
      by_cases hp : parentOf ([47] : List Nat) = some D
      · rw [parentOf_root] at hp
        cases hp
      · rw [chainFromO_none_top (some D) [47] parentOf_root (by simp)]
          at hchain
        cases hchain
    · exact h2
  obtain ⟨hl1, hl2, -⟩ := chainFromO_linked (some D) C l hchain
  rw [dirsOf]
  exact List.mem_cons_of_mem _ (ancestor_in_dirs_aux p l D C hl1 hl2 hCin)

lemma entryFind_self : ∀ es : List Entry, (keysOf es).Nodup →
    ∀ e ∈ es, entryFind es e.bom e.dir = some e := by
  intro es
  induction es with
  | nil => intro _ e he; cases he
  | cons x t ih =>
    intro hnd e he
    rw [keysOf, List.map_cons] at hnd
    cases hnd with
    | cons hn1 hn2 =>
      rcases List.mem_cons.mp he with heq | h2
      · subst heq
        rw [entryFind, List.find?_cons_of_pos _ (by simp)]
      · by_cases hkey : x.bom = e.bom ∧ x.dir = e.dir
        · exact absurd (by rw [hkey.1, hkey.2])
            (hn1 (e.bom, e.dir) (List.mem_map_of_mem _ h2))
        · rw [entryFind, List.find?_cons_of_neg _ (by simpa using hkey)]
          exact ih hn2 e h2

lemma entryFind_mem (es : List Entry) (b : String) (q : List Nat) (e : Entry)
    (h : entryFind es b q = some e) : e ∈ es ∧ e.bom = b ∧ e.dir = q := by
  rw [entryFind] at h
  have h1 := List.mem_of_find?_eq_some h
  have h2 := List.find?_some h
  simp at h2
  exact ⟨h1, h2.1, h2.2⟩

lemma key_inj (es : List Entry) (hnd : (keysOf es).Nodup) :
    ∀ e1 ∈ es, ∀ e2 ∈ es, e1.bom = e2.bom → e1.dir = e2.dir → e1 = e2 := by
  intro e1 h1 e2 h2 hb hd
  exact List.inj_on_of_nodup_map hnd h1 h2 (by rw [hb, hd])

/-- Claim C2 (amended): hierarchical sums. After one aggregation pass over
records with well-formed paths (no empty first component) and non-negative
sizes,
every result entry for key (b, D) satisfies: its Count equals the sum of
the Counts of the result entries that are D's direct children (entries of
label b whose directory's parent directory is D) plus the number of label-b
records located directly in D, and likewise its Size with the records'
sizes. Consequently, for every descendant directory C of D present in the
result under the same label, Count(C) ≤ Count(D) and Size(C) ≤ Size(D). -/
theorem hierarchical_sum_invariant (rs : List RecordR)
    (hdbl : ∀ r ∈ rs, ¬dblStart r.path) (hsz : ∀ r ∈ rs, 0 ≤ r.size) :
    (∀ (b : String) (D : List Nat) (eD : Entry),
      entryFind (entriesOfState (runAggregation rs)) b D = some eD →
      eD.count = (((entriesOfState (runAggregation rs)).filter
          (fun e => e.bom = b ∧ e.dir ≠ [47] ∧ parentD e.dir = D)).map
          (·.count)).sum + directCount rs b D ∧
      eD.size = (((entriesOfState (runAggregation rs)).filter
          (fun e => e.bom = b ∧ e.dir ≠ [47] ∧ parentD e.dir = D)).map
          (·.size)).sum + directSize rs b D) ∧
    (∀ (b : String) (D C : List Nat) (eD eC : Entry),
      entryFind (entriesOfState (runAggregation rs)) b D = some eD →
      entryFind (entriesOfState (runAggregation rs)) b C = some eC →
      ancestorOf D C → eC.count ≤ eD.count ∧ eC.size ≤ eD.size) := by
  obtain ⟨hSt, hfind⟩ := runAggregation_spec rs hdbl
  have hndk : (keysOf (entriesOfState (runAggregation rs))).Nodup :=
    state_keys_nodup _ hSt
  have hndS : (entriesOfState (runAggregation rs)).Nodup :=
    List.Nodup.of_map _ hndk
  have hval : ∀ e ∈ entriesOfState (runAggregation rs),
      e.count = specCount rs e.bom e.dir ∧
        e.size = specSize rs e.bom e.dir := by
    intro e he
    have h1 := entryFind_self _ hndk e he
    rw [hfind e.bom e.dir] at h1
    obtain ⟨-, -, h3, h4⟩ := specEntry_some_elim rs e.bom e.dir e h1
    exact ⟨h3, h4⟩
  constructor
  · intro b D eD hfD
    rw [hfind b D] at hfD
    obtain ⟨-, -, hec, hes⟩ := specEntry_some_elim rs b D eD hfD
    set S := entriesOfState (runAggregation rs) with hSdef
    set CS := S.filter
      (fun e => e.bom = b ∧ e.dir ≠ [47] ∧ parentD e.dir = D) with hCSdef
    have hCSfacts : ∀ e ∈ CS, e ∈ S ∧ e.bom = b ∧ e.dir ≠ [47] ∧
        parentD e.dir = D := by
      intro e he
      rw [hCSdef, List.mem_filter] at he
      refine ⟨he.1, ?_⟩
      simpa using he.2
    have hCSnd : CS.Nodup := hndS.filter _
    have hexist : ∀ CC : List Nat, CC ≠ [47] → parentD CC = D →
        specCount rs b CC ≠ 0 → ∃ e ∈ CS, e.dir = CC := by
      intro CC h1 h2 h3
      have h5 : entryFind S b CC =
          some ⟨b, CC, specCount rs b CC, specSize rs b CC⟩ := by
        rw [hfind b CC, specEntry, if_neg h3]
      obtain ⟨hmem, -, -⟩ := entryFind_mem S b CC _ h5
      refine ⟨⟨b, CC, specCount rs b CC, specSize rs b CC⟩, ?_, rfl⟩
      rw [hCSdef, List.mem_filter]
      exact ⟨hmem, by simp [h1, h2]⟩
    have hkey : ∀ r ∈ rs,
        ((r.bom = b ∧ D ∈ dirsOf r.path ∧ parentD r.path ≠ D) →
          ∃ e0 ∈ CS, (r.bom = b ∧ e0.dir ∈ dirsOf r.path)) ∧
        (∀ e1 ∈ CS, ∀ e2 ∈ CS,
          (r.bom = b ∧ e1.dir ∈ dirsOf r.path) →
          (r.bom = b ∧ e2.dir ∈ dirsOf r.path) → e1 = e2) ∧
        (¬(r.bom = b ∧ D ∈ dirsOf r.path ∧ parentD r.path ≠ D) →
          ∀ e ∈ CS, ¬(r.bom = b ∧ e.dir ∈ dirsOf r.path)) := by
      intro r hr
      have hwf := hdbl r hr
      have hinner : ∀ e ∈ CS, e.dir ∈ dirsOf r.path →
          e.dir ∈ innerFrom r.path 0 r.path := by
        intro e he hd
        rw [dirsOf] at hd
        rcases List.mem_cons.mp hd with hcc | hcc
        · exact absurd hcc (hCSfacts e he).2.2.1
        · exact hcc
      refine ⟨?_, ?_, ?_⟩
      · rintro ⟨hb1, hD1, hD2⟩
        obtain ⟨CC, hCC1, hCC2⟩ := chain_succ r.path D hD1 hD2
        have hCCne : CC ≠ [47] := innerDirs_ne_root r.path hwf CC hCC1
        have hpos : specCount rs b CC ≠ 0 :=
          specCount_pos rs b CC r hr hb1
            (by rw [dirsOf]; exact List.mem_cons_of_mem _ hCC1)
        obtain ⟨e0, he0, he0d⟩ := hexist CC hCCne hCC2 hpos
        exact ⟨e0, he0, hb1,
          by rw [he0d, dirsOf]; exact List.mem_cons_of_mem _ hCC1⟩
      · intro e1 h1 e2 h2 hp1 hp2
        obtain ⟨hm1, hb1, hne1, hpd1⟩ := hCSfacts e1 h1
        obtain ⟨hm2, hb2, hne2, hpd2⟩ := hCSfacts e2 h2
        have hin1 := hinner e1 h1 hp1.2
        have hin2 := hinner e2 h2 hp2.2
        have hdir : e1.dir = e2.dir :=
          succ_unique r.path hwf e1.dir e2.dir hin1 hin2
            (by rw [hpd1, hpd2])
        exact key_inj S hndk e1 hm1 e2 hm2 (by rw [hb1, hb2]) hdir
      · intro hnm e he hp
        obtain ⟨-, -, -, hpde⟩ := hCSfacts e he
        have hin := hinner e he hp.2
        apply hnm
        refine ⟨hp.1, ?_, ?_⟩
        · rw [← hpde]
          exact parentD_child_in_dirs r.path e.dir hin
        · rw [← hpde]
          exact (no_succ_of_last r.path hwf e.dir hin).symm
    constructor
    · rw [hec, specCount_eq_sum]
      have h1 : (CS.map (·.count)).sum = (rs.map (fun r =>
          if r.bom = b ∧ D ∈ dirsOf r.path ∧ parentD r.path ≠ D
          then (1 : Nat) else 0)).sum := by
        rw [show CS.map (·.count) = CS.map (fun e => (rs.map (fun r =>
            if r.bom = b ∧ e.dir ∈ dirsOf r.path then (1 : Nat) else 0)).sum)
          from List.map_congr_left (fun e he => by
            obtain ⟨hmem, hbb, -, -⟩ := hCSfacts e he
            rw [(hval e hmem).1, hbb, specCount_eq_sum])]
        rw [list_sum_comm]
        apply congrArg List.sum
        apply List.map_congr_left
        intro r hr
        obtain ⟨hex, huni, hzero⟩ := hkey r hr
        by_cases hm : r.bom = b ∧ D ∈ dirsOf r.path ∧ parentD r.path ≠ D
        · rw [if_pos hm]
          obtain ⟨e0, he0, hp0⟩ := hex hm
          exact sum_ite_one 1 CS (fun e => r.bom = b ∧ e.dir ∈ dirsOf r.path)
            hCSnd huni e0 he0 hp0
        · rw [if_neg hm]
          exact sum_ite_zero (fun _ => 1) CS _ (hzero hm)
      rw [h1, directCount_eq_sum, ← sum_map_add]
      apply congrArg List.sum
      apply List.map_congr_left
      intro r _
      by_cases hb1 : r.bom = b
      · by_cases hpd : parentD r.path = D
        · rw [if_pos (show r.bom = b ∧ D ∈ dirsOf r.path from
              ⟨hb1, hpd ▸ parentD_mem_dirs r.path⟩),
            if_neg (show ¬(r.bom = b ∧ D ∈ dirsOf r.path ∧
              parentD r.path ≠ D) from fun hc => hc.2.2 hpd),
            if_pos (show r.bom = b ∧ parentD r.path = D from ⟨hb1, hpd⟩)]
        · rw [if_neg (show ¬(r.bom = b ∧ parentD r.path = D) from
              fun hc => hpd hc.2)]
          by_cases hd : D ∈ dirsOf r.path
          · rw [if_pos (show r.bom = b ∧ D ∈ dirsOf r.path from ⟨hb1, hd⟩),
              if_pos (show r.bom = b ∧ D ∈ dirsOf r.path ∧
                parentD r.path ≠ D from ⟨hb1, hd, hpd⟩)]
          · rw [if_neg (show ¬(r.bom = b ∧ D ∈ dirsOf r.path) from
                fun hc => hd hc.2),
              if_neg (show ¬(r.bom = b ∧ D ∈ dirsOf r.path ∧
                parentD r.path ≠ D) from fun hc => hd hc.2.1)]
      · rw [if_neg (show ¬(r.bom = b ∧ D ∈ dirsOf r.path) from
            fun hc => hb1 hc.1),
          if_neg (show ¬(r.bom = b ∧ D ∈ dirsOf r.path ∧
            parentD r.path ≠ D) from fun hc => hb1 hc.1),
          if_neg (show ¬(r.bom = b ∧ parentD r.path = D) from
            fun hc => hb1 hc.1)]
    · rw [hes, specSize_eq_sum]
      have h1 : (CS.map (·.size)).sum = (rs.map (fun r =>
          if r.bom = b ∧ D ∈ dirsOf r.path ∧ parentD r.path ≠ D
          then r.size else 0)).sum := by
        rw [show CS.map (·.size) = CS.map (fun e => (rs.map (fun r =>
            if r.bom = b ∧ e.dir ∈ dirsOf r.path then r.size else 0)).sum)
          from List.map_congr_left (fun e he => by
            obtain ⟨hmem, hbb, -, -⟩ := hCSfacts e he
            rw [(hval e hmem).2, hbb, specSize_eq_sum])]
        rw [list_sum_comm]
        apply congrArg List.sum
        apply List.map_congr_left
        intro r hr
        obtain ⟨hex, huni, hzero⟩ := hkey r hr
        by_cases hm : r.bom = b ∧ D ∈ dirsOf r.path ∧ parentD r.path ≠ D
        · rw [if_pos hm]
          obtain ⟨e0, he0, hp0⟩ := hex hm
          exact sum_ite_one r.size CS
            (fun e => r.bom = b ∧ e.dir ∈ dirsOf r.path) hCSnd huni e0 he0
            hp0
        · rw [if_neg hm]
          exact sum_ite_zero (fun _ => r.size) CS _ (hzero hm)
      rw [h1, directSize_eq_sum, ← sum_map_add]
      apply congrArg List.sum
      apply List.map_congr_left
      intro r _
      by_cases hb1 : r.bom = b
      · by_cases hpd : parentD r.path = D
        · rw [if_pos (show r.bom = b ∧ D ∈ dirsOf r.path from
              ⟨hb1, hpd ▸ parentD_mem_dirs r.path⟩),
            if_neg (show ¬(r.bom = b ∧ D ∈ dirsOf r.path ∧
              parentD r.path ≠ D) from fun hc => hc.2.2 hpd),
            if_pos (show r.bom = b ∧ parentD r.path = D from ⟨hb1, hpd⟩)]
          omega
        · rw [if_neg (show ¬(r.bom = b ∧ parentD r.path = D) from
              fun hc => hpd hc.2)]
          by_cases hd : D ∈ dirsOf r.path
          · rw [if_pos (show r.bom = b ∧ D ∈ dirsOf r.path from ⟨hb1, hd⟩),
              if_pos (show r.bom = b ∧ D ∈ dirsOf r.path ∧
                parentD r.path ≠ D from ⟨hb1, hd, hpd⟩)]
            omega
          · rw [if_neg (show ¬(r.bom = b ∧ D ∈ dirsOf r.path) from
                fun hc => hd hc.2),
              if_neg (show ¬(r.bom = b ∧ D ∈ dirsOf r.path ∧
                parentD r.path ≠ D) from fun hc => hd hc.2.1)]
            omega
      · rw [if_neg (show ¬(r.bom = b ∧ D ∈ dirsOf r.path) from
            fun hc => hb1 hc.1),
          if_neg (show ¬(r.bom = b ∧ D ∈ dirsOf r.path ∧
            parentD r.path ≠ D) from fun hc => hb1 hc.1),
          if_neg (show ¬(r.bom = b ∧ parentD r.path = D) from
            fun hc => hb1 hc.1)]
        omega
  · intro b D C eD eC hfD hfC hanc
    rw [hfind b D] at hfD
    rw [hfind b C] at hfC
    obtain ⟨-, -, hDc, hDs⟩ := specEntry_some_elim rs b D eD hfD
    obtain ⟨-, -, hCc, hCs⟩ := specEntry_some_elim rs b C eC hfC
    have himp : ∀ r ∈ rs, r.bom = b → C ∈ dirsOf r.path →
        D ∈ dirsOf r.path := by
      intro r hr _ hC
      rcases hanc with ⟨hD47, -⟩ | ⟨l, hl⟩
      · rw [hD47, dirsOf]
        exact List.mem_cons_self _ _
      · exact ancestor_in_dirs r.path D C hC l hl
    obtain ⟨h1, h2⟩ := spec_mono rs b C D himp hsz
    rw [hDc, hDs, hCc, hCs]
    exact ⟨h1, h2⟩

/-- Claim C2 witness: two concrete records under label "X" — file /a/b/f of
size 100 and file /a/g of size 7. The entry for directory /a has Count 2
and Size 107: its one direct child /a/b contributes (1, 100) and the record
g directly in /a contributes (1, 7); the hypotheses are discharged by
evaluation. -/
theorem hierarchical_sum_invariant_witness :
    (∀ r ∈ [(⟨"X", strBytes "/a/b/f", 100⟩ : RecordR),
        ⟨"X", strBytes "/a/g", 7⟩], ¬dblStart r.path) ∧
    (∀ r ∈ [(⟨"X", strBytes "/a/b/f", 100⟩ : RecordR),
        ⟨"X", strBytes "/a/g", 7⟩], 0 ≤ r.size) ∧
    entryFind (entriesOfState (runAggregation
        [(⟨"X", strBytes "/a/b/f", 100⟩ : RecordR),
          ⟨"X", strBytes "/a/g", 7⟩])) "X" (strBytes "/a") =
      some ⟨"X", strBytes "/a", 2, 107⟩ ∧
    ((⟨"X", strBytes "/a", 2, 107⟩ : Entry).count =
      (((entriesOfState (runAggregation
          [(⟨"X", strBytes "/a/b/f", 100⟩ : RecordR),
            ⟨"X", strBytes "/a/g", 7⟩])).filter
        (fun e => e.bom = "X" ∧ e.dir ≠ [47] ∧
          parentD e.dir = strBytes "/a")).map (·.count)).sum +
        directCount [(⟨"X", strBytes "/a/b/f", 100⟩ : RecordR),
          ⟨"X", strBytes "/a/g", 7⟩] "X" (strBytes "/a") ∧
    (⟨"X", strBytes "/a", 2, 107⟩ : Entry).size =
      (((entriesOfState (runAggregation
          [(⟨"X", strBytes "/a/b/f", 100⟩ : RecordR),
            ⟨"X", strBytes "/a/g", 7⟩])).filter
        (fun e => e.bom = "X" ∧ e.dir ≠ [47] ∧
          parentD e.dir = strBytes "/a")).map (·.size)).sum +
        directSize [(⟨"X", strBytes "/a/b/f", 100⟩ : RecordR),
          ⟨"X", strBytes "/a/g", 7⟩] "X" (strBytes "/a")) :=
  ⟨by decide, by decide, by decide,
    (hierarchical_sum_invariant
      [⟨"X", strBytes "/a/b/f", 100⟩, ⟨"X", strBytes "/a/g", 7⟩]
      (by decide) (by decide)).1 "X" (strBytes "/a")
      ⟨"X", strBytes "/a", 2, 107⟩ (by decide)⟩

/-- Claim C2 counterexample: the unamended claim quantifies over every
aggregation pass, but the pass over the accepted records ("z", "//x", 5)
and ("z", "/y", 3) refutes it. The produced Stats collection holds two
rows for directory "/" under label "z" — (Count 2, Size 8) and
(Count 1, Size 5). Directory "/" has no direct children in the result and
both records sit directly in "/" (their files' parent directory is "/"),
so the claimed totals for D = "/" are Count 0 + 2 and Size 0 + 8; the
Stats entry ("z", "/", 1, 5) present in the result satisfies neither
equation. -/
theorem hierarchical_sum_counterexample :
    entriesOfState (runAggregation [(⟨"z", [47, 47, 120], 5⟩ : RecordR),
        ⟨"z", [47, 121], 3⟩]) =
      [⟨"z", [47], 2, 8⟩, ⟨"z", [47], 1, 5⟩] ∧
    ¬ ((⟨"z", [47], 1, 5⟩ : Entry).count =
      (((entriesOfState (runAggregation
          [(⟨"z", [47, 47, 120], 5⟩ : RecordR), ⟨"z", [47, 121], 3⟩])).filter
        (fun e => e.bom = "z" ∧ e.dir ≠ [47] ∧ parentD e.dir = [47])).map
        (·.count)).sum +
        directCount [(⟨"z", [47, 47, 120], 5⟩ : RecordR),
          ⟨"z", [47, 121], 3⟩] "z" [47]) ∧
    ¬ ((⟨"z", [47], 1, 5⟩ : Entry).size =
      (((entriesOfState (runAggregation
          [(⟨"z", [47, 47, 120], 5⟩ : RecordR), ⟨"z", [47, 121], 3⟩])).filter
        (fun e => e.bom = "z" ∧ e.dir ≠ [47] ∧ parentD e.dir = [47])).map
        (·.size)).sum +
        directSize [(⟨"z", [47, 47, 120], 5⟩ : RecordR),
          ⟨"z", [47, 121], 3⟩] "z" [47]) := by
  exact ⟨by decide, by decide, by decide⟩

/-- Claim C4: every Stats list BoMDirectoryStats returns is sorted by the
total priority order: descending Size first, then ascending directory depth
(count of path separators) on size ties, then ascending lexicographic
directory as final tie-break. -/
theorem bomdirectorystats_sorted (p : StatsParser) (lines : List (List Nat))
    (g : GIDToBoM) (d now : Int) (l : List Entry)
    (h : BoMDirectoryStats p lines g d now = .ok l) :
    List.Sorted priorityLE l := by
  unfold BoMDirectoryStats at h
  split at h
  · cases h
  · cases h
  · cases h
    exact sorted_sortBoMDirectoryStats _

set_option maxHeartbeats 1600000 in
set_option maxRecDepth 4096 in
unseal List.merge List.mergeSort in
/-- Claim C4 witness: the sortedness theorem applied to a concrete
two-record run. -/
theorem bomdirectorystats_sorted_witness :
    List.Sorted priorityLE
      [⟨"X", [47], 2, 10⟩, ⟨"X", [47, 97], 1, 5⟩, ⟨"X", [47, 98], 1, 5⟩] :=
  bomdirectorystats_sorted newStatsParser [sampleLineA, sampleLineB]
    ⟨[(7, "X")]⟩ 100 1000
    [⟨"X", [47], 2, 10⟩, ⟨"X", [47, 97], 1, 5⟩, ⟨"X", [47, 98], 1, 5⟩]
    (by decide)

/-- Claim C8 (code bug evidence): the line consisting of the bytes "x" and
tab has length greater than one and fewer than eight tab-separated columns,
so the entry-kind column cannot be located; the claim and the spec say Scan
must return false with the too-few-columns error, but the Go code panics:
after the first column consumes the line's final tab, the next
parseNextColumn call indexes lineBytes[lineLength] before any bounds check
(index out of range), modelled as the crash outcome. -/
theorem scan_crash_on_trailing_tab :
    1 < ([120, 9] : List Nat).length ∧ ([120, 9] : List Nat).count 9 < 8 ∧
      Scan newStatsParser [[120, 9]] = .crash :=
  ⟨by decide, by decide, rfl⟩

/-- Claim C9: a line of length at most one is accepted by Scan (it returns
true, consuming that line only), no error is recorded, and none of the
exposed fields Path, Size, GID, MTime, CTime, EntryType change. -/
theorem scan_blank_line_noop (p : StatsParser) (l : List Nat)
    (ls : List (List Nat)) (h : l.length ≤ 1) :
    ∃ p', Scan p (l :: ls) = .ret true p' ls ∧ p'.Path = p.Path ∧
      p'.Size = p.Size ∧ p'.GID = p.GID ∧ p'.MTime = p.MTime ∧
      p'.CTime = p.CTime ∧ p'.EntryType = p.EntryType ∧ Err p' = Err p := by
  refine ⟨p, ?_, rfl, rfl, rfl, rfl, rfl, rfl, rfl⟩
  simp [Scan, parseLineCore, h]

/-- Claim C9 witness: the blank-line pass-through at a concrete input. -/
theorem scan_blank_line_noop_witness :
    ∃ p', Scan newStatsParser [[120]] = .ret true p' [] ∧
      p'.Path = newStatsParser.Path ∧ p'.Size = newStatsParser.Size ∧
      p'.GID = newStatsParser.GID ∧ p'.MTime = newStatsParser.MTime ∧
      p'.CTime = newStatsParser.CTime ∧
      p'.EntryType = newStatsParser.EntryType ∧
      Err p' = Err newStatsParser :=
  scan_blank_line_noop newStatsParser [120] [] (by decide)

/-- Claim C10: NewGIDToBoM on completely empty input succeeds with an empty
lookup whose GetBom fails with ErrInvalidGID for every GID, while an input
consisting of a single blank line fails at load time, because a blank line
splits into one tab-separated column instead of two. -/
theorem gidtobom_empty_ok_blank_rejected :
    NewGIDToBoM [] = .ok ⟨[]⟩ ∧
      (∀ gid : Int, GetBom ⟨[]⟩ gid = .error .invalidGID) ∧
      NewGIDToBoM [""] = .error (.invalidLine "") :=
  ⟨rfl, fun _ => rfl, rfl⟩

unseal List.merge List.mergeSort in
/-- Claim C7 (code bug evidence): on a stream whose line has no tab, Scan
stops with the too-few-columns decode error recorded, yet BoMDirectoryStats
returns an ok result (the empty stats list) with no error at all: the Go
getBoMDirectoryStats in src/bomdirstats.go returns results with a nil error
when Scan turns false and never consults sp.Err(), contradicting the claim
and the repository's own test that expects the error to be returned. -/
theorem decode_error_not_propagated :
    (∃ p1, Scan (FilterForFilesOlderThan newStatsParser 100 1000) [noTabsLine]
        = .ret false p1 [] ∧ Err p1 = some .tooFewColumns) ∧
      BoMDirectoryStats newStatsParser [noTabsLine] ⟨[(7, "X")]⟩ 100 1000
        = .ok [] :=
  ⟨⟨_, rfl, rfl⟩, rfl⟩

/-- Claim C6: whenever the scan yields an accepted record whose GID the
ownership lookup rejects (GetBom returns ErrInvalidGID), the aggregation
loop aborts at once with that error, and BoMDirectoryStats returns the
error outcome, which carries no stats at all (the Go code returns nil
results with the error). The first conjunct covers any intermediate loop
state, so the failure is immediate whichever accepted record is the first
unmapped one. -/
theorem unknown_gid_fails_whole_run :
    (∀ (g : GIDToBoM) (p : StatsParser) (st : List (String × StatsNode))
        (lines : List (List Nat)) (p1 : StatsParser) (rest : List (List Nat)),
      Scan p lines = .ret true p1 rest → GetBom g p1.GID = .error .invalidGID →
      getBoMDirectoryStatsGo g p st lines = .error .invalidGID) ∧
    (∀ (p : StatsParser) (lines : List (List Nat)) (g : GIDToBoM)
        (d now : Int) (p1 : StatsParser) (rest : List (List Nat)),
      Scan (FilterForFilesOlderThan p d now) lines = .ret true p1 rest →
      GetBom g p1.GID = .error .invalidGID →
      BoMDirectoryStats p lines g d now = .error .invalidGID) := by
  have part1 : ∀ (g : GIDToBoM) (lines : List (List Nat)) (p : StatsParser)
      (st : List (String × StatsNode)) (p1 : StatsParser)
      (rest : List (List Nat)),
      Scan p lines = .ret true p1 rest → GetBom g p1.GID = .error .invalidGID →
      getBoMDirectoryStatsGo g p st lines = .error .invalidGID := by
    intro g lines
    induction lines with
    | nil => intro p st p1 rest h; simp [Scan] at h
    | cons l ls ih =>
      intro p st p1 rest h hg
      rw [Scan] at h
      rw [getBoMDirectoryStatsGo]
      cases hpl : parseLineCore p l with
      | ret b p' =>
        rw [hpl] at h
        cases h
        simp [hg]
      | skip p' =>
        rw [hpl] at h
        exact ih p' st p1 rest h hg
      | crash => rw [hpl] at h; cases h
  refine ⟨fun g p st lines => part1 g lines p st, ?_⟩
  intro p lines g d now p1 rest h hg
  rw [BoMDirectoryStats, part1 g lines _ _ p1 rest h hg]

/-- Claim C6 witness: a concrete one-record stream whose GID 7 is absent
from an empty lookup makes BoMDirectoryStats fail with the invalid-GID
error. -/
theorem unknown_gid_fails_whole_run_witness :
    BoMDirectoryStats newStatsParser [sampleLine7] ⟨[]⟩ 100 1000
      = .error .invalidGID :=
  unknown_gid_fails_whole_run.2 newStatsParser [sampleLine7] ⟨[]⟩ 100 1000
    _ _ rfl rfl

end StatsParse
